import Mathlib

/-!
Verification of the relr-unpack relocation tool.

This file embeds, as executable Lean definitions, the two core subsystems of
the tool: the run-length relocation decoder (`RelocationPacker::UnpackRelocations`
in src/packer.cc) and the hole-propagation engine
(`ElfFile::ResizeSection` and its helpers in src/elf_file.cc), together with the
record-shape conversion helpers and the dynamic-table rewriting of
`ElfFile::UnpackTypedRelocations`.

Machine words are modelled as `Nat` with explicit reduction modulo `2 ^ (8 * ws)`
where `ws` is `sizeof(ELF::Addr)` (4 for ELF32, 8 for ELF64); the code is
templated over the two widths, and the embedding is correspondingly
parametrised.  Signed quantities (`ssize_t hole_size`, `d_tag`) are `Int`.
Fatal conditions (`CHECK` / `LOG(FATAL)`) are modelled as `Option`-valued
functions returning `none`; recoverable load errors (`LOG(ERROR); return false`)
are distinguished from fatal ones by a dedicated result type.
-/

namespace RelrUnpack

/-! ## Constants

Values of the ELF constants used by the code (from the system elf headers and
the constants defined at the top of src/elf_file.cc).  The exact numerals of
the platform relocation type tag are immaterial to every claim below. -/

def PT_LOAD : Nat := 1
def PT_DYNAMIC : Nat := 2
def PT_GNU_STACK : Nat := 0x6474e551
def ET_DYN : Nat := 3
def ELFDATA2LSB : Nat := 1
def SHT_RELA : Nat := 4
def SHT_REL : Nat := 9
-- src/elf_file.cc line 35
def SHT_RELR : Nat := 19
def DT_RELASZ : Int := 8
def DT_RELSZ : Int := 18
-- src/elf_file.cc lines 31-33
def DT_RELRSZ : Int := 35
def DT_RELR : Int := 36
def DT_RELRENT : Int := 37
def DT_MIPS_RLD_MAP_REL : Int := 0x70000035
-- src/elf_file.cc lines 37-43
def kPreserveAlignment : Nat := 4096
-- the platform's relative relocation kind (from elf_traits.h)
def R_ARM_RELATIVE : Nat := 23

/-! ## Relocation records -/

/-- `ELF::Rela`: relocation record with explicit addend. -/
structure Rela where
  r_offset : Nat
  r_info : Nat
  r_addend : Int
  deriving DecidableEq, Repr

/-- `ELF::Rel`: relocation record without addend. -/
structure Rel where
  r_offset : Nat
  r_info : Nat
  deriving DecidableEq, Repr

/-! ## The relocation codec (src/packer.cc)

`RelocationPacker::UnpackRelocations` walks the packed words; a word with the
least-significant bit clear is a literal address, a word with it set is a
bitmap.  The inner `while (entry != 0) { entry >>= 1; if (entry & 1) ... }`
loop of the bitmap case is `bitmapRecords`; the outer `for` loop is
`unpackLoop`, which carries the running `base` cursor and the output vector
(the C++ code appends with `push_back`). -/

/-- The inner while-loop of the bitmap case (src/packer.cc lines 34-45):
shift right by one; if the new low bit is set, emit a record at the cursor;
advance the cursor by the word size (wrapping at the word width) either way. -/
def bitmapRecords (ws : Nat) (entry offset : Nat) : List Rela :=
  if h : entry = 0 then []
  else
    (if (entry / 2) % 2 = 1 then [⟨offset, R_ARM_RELATIVE, 0⟩] else [])
      ++ bitmapRecords ws (entry / 2) ((offset + ws) % 2 ^ (8 * ws))
termination_by entry
decreasing_by exact Nat.div_lt_self (Nat.pos_of_ne_zero h) (by norm_num)

/-- The outer loop of `RelocationPacker::UnpackRelocations`
(src/packer.cc lines 21-47).  Returns the final `base` cursor and the
output vector.  A literal (even) word emits one record at itself and resets
`base` to the word plus one word size; a bitmap (odd) word emits its
`bitmapRecords` starting at `base` and then advances `base` by
`(word_bits - 1) * word_size`.  All cursor arithmetic wraps at the word
width, as the C++ `ELF::Addr` arithmetic does. -/
def unpackLoop (ws : Nat) : Nat → List Nat → List Rela → Nat × List Rela
  | base, [], acc => (base, acc)
  | base, entry :: rest, acc =>
    if entry % 2 = 0 then
      unpackLoop ws ((entry + ws) % 2 ^ (8 * ws)) rest
        (acc ++ [⟨entry, R_ARM_RELATIVE, 0⟩])
    else
      unpackLoop ws ((base + (8 * ws - 1) * ws) % 2 ^ (8 * ws)) rest
        (acc ++ bitmapRecords ws entry base)

/-- `RelocationPacker::UnpackRelocations(packed, relocations)`: the packed
stream is decoded starting from `base = 0`, appending records to the
caller-supplied vector. -/
def UnpackRelocations (ws : Nat) (packed : List Nat) (relocations : List Rela) :
    List Rela :=
  (unpackLoop ws 0 packed relocations).2

/-- The pure decode of a packed stream into records (the decoder run on an
empty initial vector). -/
def decodeRelr (ws : Nat) (packed : List Nat) : List Rela :=
  (unpackLoop ws 0 packed []).2

/-! ## Shape conversion helpers (src/elf_file.cc lines 738-761) -/

/-- `ElfFile::ConvertRelArrayToRelaVector`: widen addend-less records,
giving every output record addend zero (push_back loop). -/
def ConvertRelArrayToRelaVector (rel_array : List Rel) (rela_vector : List Rela) :
    List Rela :=
  match rel_array with
  | [] => rela_vector
  | r :: rest =>
    ConvertRelArrayToRelaVector rest (rela_vector ++ [⟨r.r_offset, r.r_info, 0⟩])

/-- `ElfFile::ConvertRelaVectorToRelVector`: narrow addend-bearing records;
`CHECK(rela.r_addend == 0)` is fatal on the first non-zero addend, modelled
as `none`. -/
def ConvertRelaVectorToRelVector (rela_vector : List Rela) (rel_vector : List Rel) :
    Option (List Rel) :=
  match rela_vector with
  | [] => some rel_vector
  | rela :: rest =>
    if rela.r_addend = 0 then
      ConvertRelaVectorToRelVector rest (rel_vector ++ [⟨rela.r_offset, rela.r_info⟩])
    else none

/-! ## ELF file state (src/elf_file.cc)

The hole-propagation engine manipulates the main header's two table offsets,
the section headers, the program headers and the dynamic table's entries.
Only the fields the engine reads or writes are modelled.  The dynamic table
section's data buffer is the `dynamics` list.  `M = 2 ^ (8 * ws)` is the
word modulus: every `+= hole_size` in the C++ code is a w-bit unsigned
wraparound addition of the signed `ssize_t` delta, modelled by `addOff`. -/

/-- Section header: `sh_addr`, `sh_offset`, `sh_size` (the fields
`ResizeSection` and its helpers touch or inspect). -/
structure Shdr where
  sh_addr : Nat
  sh_offset : Nat
  sh_size : Nat
  deriving DecidableEq, Repr

/-- Program header fields used by the engine. -/
structure Phdr where
  p_type : Nat
  p_offset : Nat
  p_vaddr : Nat
  p_filesz : Nat
  p_memsz : Nat
  deriving DecidableEq, Repr

/-- Dynamic table entry: tag and value (`d_un`). -/
structure Dyn where
  d_tag : Int
  d_val : Nat
  deriving DecidableEq, Repr

/-- The in-memory image: main-header table offsets, section header table,
program header table, and the dynamic table section's entries. -/
structure ElfState where
  e_phoff : Nat
  e_shoff : Nat
  sections : List Shdr
  phdrs : List Phdr
  dynamics : List Dyn
  deriving DecidableEq, Repr

/-- w-bit unsigned wraparound addition of a signed delta: the value of
`x += hole_size` where `x` is an unsigned word of modulus `M`. -/
def addOff (M : Nat) (x : Nat) (h : Int) : Nat := (((x : Int) + h) % (M : Int)).toNat

/-- Apply `f` to the element at index `t`, leaving the rest unchanged
(in-place mutation of one table slot). -/
def mapIdx (f : α → α) : Nat → List α → List α
  | _, [] => []
  | 0, x :: rest => f x :: rest
  | t + 1, x :: rest => x :: mapIdx f t rest

/-- `AdjustElfHeaderForHole` (src/elf_file.cc lines 262-274): shift `e_phoff`
and `e_shoff` when strictly past the hole start. -/
def AdjustElfHeaderForHole (M : Nat) (e_phoff e_shoff : Nat)
    (hole_start : Nat) (hole_size : Int) : Nat × Nat :=
  (if e_phoff > hole_start then addOff M e_phoff hole_size else e_phoff,
   if e_shoff > hole_start then addOff M e_shoff hole_size else e_shoff)

/-- The loop body of `AdjustSectionHeadersForHole` (lines 289-299): shift a
section's file offset when strictly past the hole start; `sh_addr` is never
written (the `sh_addr` branch in the source is disabled under `#if 0`). -/
def shiftShdrOffset (M hole_start : Nat) (hole_size : Int) (sh : Shdr) : Shdr :=
  if sh.sh_offset > hole_start then
    { sh with sh_offset := addOff M sh.sh_offset hole_size }
  else sh

/-- `AdjustSectionHeadersForHole` (lines 277-301). -/
def AdjustSectionHeadersForHole (M : Nat) (sections : List Shdr)
    (hole_start : Nat) (hole_size : Int) : List Shdr :=
  sections.map (shiftShdrOffset M hole_start hole_size)

/-- The loop body of `AdjustProgramHeaderFields` (lines 311-327): skip
`PT_GNU_STACK` entirely; shift any other segment's file offset when strictly
past the hole start. -/
def shiftPhdrOffset (M hole_start : Nat) (hole_size : Int) (p : Phdr) : Phdr :=
  if p.p_type = PT_GNU_STACK then p
  else if p.p_offset > hole_start then
    { p with p_offset := addOff M p.p_offset hole_size }
  else p

/-- `AdjustProgramHeaderFields` (lines 306-328). -/
def AdjustProgramHeaderFields (M : Nat) (phdrs : List Phdr)
    (hole_start : Nat) (hole_size : Int) : List Phdr :=
  phdrs.map (shiftPhdrOffset M hole_start hole_size)

/-- The loop condition of `FindLoadSegmentForHole` (lines 339-341):
`PT_LOAD` and `p_offset <= hole_start <= p_offset + p_filesz`, the sum
computed in w-bit arithmetic.  Note the interval is closed at both ends
(`>= hole_start`). -/
def loadSegmentMatch (M : Nat) (hole_start : Nat) (p : Phdr) : Bool :=
  p.p_type == PT_LOAD && decide (p.p_offset ≤ hole_start)
    && decide ((p.p_offset + p.p_filesz) % M ≥ hole_start)

/-- `FindLoadSegmentForHole` (lines 332-349): index of the first matching
`PT_LOAD` segment; `none` models `LOG(FATAL)` when no segment matches. -/
def FindLoadSegmentForHole (M : Nat) (hole_start : Nat) : List Phdr → Option Nat
  | [] => none
  | p :: rest =>
    if loadSegmentMatch M hole_start p then some 0
    else (FindLoadSegmentForHole M hole_start rest).map (· + 1)

/-- The target-segment update of `RewriteProgramHeadersForHole`
(lines 371-372): `p_filesz += hole_size; p_memsz += hole_size`. -/
def growPhdr (M : Nat) (hole_size : Int) (p : Phdr) : Phdr :=
  { p with p_filesz := addOff M p.p_filesz hole_size,
           p_memsz := addOff M p.p_memsz hole_size }

/-- `RewriteProgramHeadersForHole` (lines 352-379): grow the found `PT_LOAD`
segment's `p_filesz`/`p_memsz` by the hole size, then shift offsets of the
program headers past the hole. -/
def RewriteProgramHeadersForHole (M : Nat) (phdrs : List Phdr)
    (hole_start : Nat) (hole_size : Int) : Option (List Phdr) :=
  match FindLoadSegmentForHole M hole_start phdrs with
  | none => none
  | some t =>
    some (AdjustProgramHeaderFields M (mapIdx (growPhdr M hole_size) t phdrs)
      hole_start hole_size)

/-- The program header `GetDynamicSection` (lines 382-414) selects: the last
`PT_DYNAMIC` entry (the loop overwrites on each match). -/
def findDynamicPhdr (phdrs : List Phdr) : Option Phdr :=
  (phdrs.filter fun p => p.p_type == PT_DYNAMIC).getLast?

/-- `GetDynamicSection` succeeds iff a `PT_DYNAMIC` program header exists and
some section's offset equals its offset; both `CHECK`s are fatal. -/
def dynamicSectionFound (σ : ElfState) : Bool :=
  match findDynamicPhdr σ.phdrs with
  | none => false
  | some dp => σ.sections.any fun s => s.sh_offset == dp.p_offset

/-- The per-entry rewriting of `AdjustDynamicSectionForHole`
(lines 432-483): `DT_RELSZ`/`DT_RELASZ` and `DT_MIPS_RLD_MAP_REL` values are
adjusted by the hole size; every other tag is untouched (the offset-tag
branch in the source is disabled under `#if 0`, and `hole_start` is unused
by the live path). -/
def adjustDynamicEntry (M : Nat) (hole_size : Int) (d : Dyn) : Dyn :=
  let d1 := if d.d_tag = DT_RELSZ ∨ d.d_tag = DT_RELASZ then
    { d with d_val := addOff M d.d_val hole_size } else d
  if d1.d_tag = DT_MIPS_RLD_MAP_REL then
    { d1 with d_val := addOff M d1.d_val hole_size } else d1

/-- `AdjustDynamicSectionForHole` (lines 417-488) applied to the dynamic
table's entries. -/
def AdjustDynamicSectionForHole (M : Nat) (dynamics : List Dyn)
    (hole_size : Int) : List Dyn :=
  dynamics.map (adjustDynamicEntry M hole_size)

/-- The section-resize step of `ResizeSection` (lines 523-524):
`data->d_size += hole_size; section_header->sh_size += hole_size`. -/
def resizeShdrSize (M : Nat) (hole_size : Int) (sh : Shdr) : Shdr :=
  { sh with sh_size := addOff M sh.sh_size hole_size }

/-- `ElfFile::ResizeSection` (lines 493-543) on the section at index `s`:
no-op when the size is unchanged; fatal (`none`) when the section is empty,
when no `PT_LOAD` segment covers the hole, or when the dynamic section
cannot be relocated.  Otherwise: resize the section, shift the main-header
offsets, the section offsets and the program header offsets past the hole,
grow the covering `PT_LOAD` segment, and adjust the dynamic entries. -/
def ResizeSection (M : Nat) (σ : ElfState) (s : Nat) (new_size : Nat) :
    Option ElfState :=
  match σ.sections[s]? with
  | none => none
  | some sec =>
    if sec.sh_size = new_size then some σ
    else if sec.sh_size = 0 then none
    else
      let hole_start := sec.sh_offset
      let hole_size : Int := (new_size : Int) - (sec.sh_size : Int)
      let sections1 := mapIdx (resizeShdrSize M hole_size) s σ.sections
      let offs := AdjustElfHeaderForHole M σ.e_phoff σ.e_shoff hole_start hole_size
      let sections2 := AdjustSectionHeadersForHole M sections1 hole_start hole_size
      match RewriteProgramHeadersForHole M σ.phdrs hole_start hole_size with
      | none => none
      | some phdrs2 =>
        let σ1 : ElfState :=
          { e_phoff := offs.1, e_shoff := offs.2, sections := sections2,
            phdrs := phdrs2, dynamics := σ.dynamics }
        if dynamicSectionFound σ1 then
          some { σ1 with
            dynamics := AdjustDynamicSectionForHole M σ1.dynamics hole_size }
        else none

/-! ## Dynamic-entry lookup and removal (src/elf_file.cc lines 548-575 and
676-702) -/

/-- The scan of `FindDynamicEntry`, which loops `i` over
`[0, dynamics.size() - 1)` — the terminating sentinel entry is excluded from
the search.  Returns the first matching index. -/
def findDynLive (tag : Int) : List Dyn → Option Nat
  | [] => none
  | [_] => none
  | d :: d2 :: rest =>
    if d.d_tag = tag then some 0
    else (findDynLive tag (d2 :: rest)).map (· + 1)

/-- `FindDynamicEntry` (lines 548-560): the first live slot with the tag, or
`dynamics.size()` when not found. -/
def FindDynamicEntry (tag : Int) (dynamics : List Dyn) : Nat :=
  (findDynLive tag dynamics).getD dynamics.length

/-- One erase block of `UnpackTypedRelocations` (e.g. lines 676-684): find
the slot for the tag — `LOG(FATAL)` (modelled `none`) when absent — and
erase it. -/
def removeDynamicEntry (tag : Int) (dynamics : List Dyn) : Option (List Dyn) :=
  let slot := FindDynamicEntry tag dynamics
  if slot = dynamics.length then none
  else some (dynamics.eraseIdx slot)

/-- The three erase blocks of `UnpackTypedRelocations` (lines 676-702), in
source order: `DT_RELRSZ`, then `DT_RELR`, then `DT_RELRENT`. -/
def removePackedDynamics (dynamics : List Dyn) : Option (List Dyn) :=
  match removeDynamicEntry DT_RELRSZ dynamics with
  | none => none
  | some d1 =>
    match removeDynamicEntry DT_RELR d1 with
    | none => none
    | some d2 => removeDynamicEntry DT_RELRENT d2

/-! ## The unpack pipeline (src/elf_file.cc lines 606-711) -/

/-- The relocation-record shape found at load time. -/
inductive RelocType
  | REL
  | RELA
  deriving DecidableEq, Repr

/-- `sizeof(ELF::Rel)` / `sizeof(ELF::Rela)`: two or three words. -/
def relocEntrySize (ws : Nat) : RelocType → Nat
  | .REL => 2 * ws
  | .RELA => 3 * ws

/-- `sizeof(ELF::Dyn)`: two words. -/
def dynEntrySize (ws : Nat) : Nat := 2 * ws

/-- `ElfFile::UnpackTypedRelocations` (lines 607-711).  `rsec`/`dsec` are the
indices of the relative-relocations and dynamic-table sections, `origRel` /
`origRela` the current contents of the relocations section in whichever
shape `rtype` says it has, and `packed` the packed section's words.

Steps, in source order: build the working `Rela` vector from the current
records (widening `Rel` records with addend zero); append the decoded
records; for the `REL` shape narrow the vector back (fatal on a non-zero
addend); resize the relocations section to the unpacked byte size (which
adjusts `DT_RELSZ`/`DT_RELASZ` in the dynamic table's stored data by the
relocation hole size); read back the dynamic table's data and erase the
three packed-relocation tags (each fatal if absent); resize the dynamic
section (this adjusts the *stored* — pre-erase — data again); finally
overwrite the dynamic section's data with the erased vector
(`SetSectionData`, line 707), discarding the second adjustment.

Returns the final state (whose `dynamics` is the written dynamic table)
together with the working `Rela` vector. -/
def UnpackTypedRelocations (ws : Nat) (σ : ElfState) (rsec dsec : Nat)
    (rtype : RelocType) (origRel : List Rel) (origRela : List Rela)
    (packed : List Nat) : Option (ElfState × List Rela) :=
  let M := 2 ^ (8 * ws)
  let relocations : List Rela :=
    match rtype with
    | .REL => ConvertRelArrayToRelaVector origRel []
    | .RELA => origRela
  let relocations := UnpackRelocations ws packed relocations
  let unpacked_bytes := relocations.length * relocEntrySize ws rtype
  let narrow_ok : Bool :=
    match rtype with
    | .RELA => true
    | .REL => (ConvertRelaVectorToRelVector relocations []).isSome
  if narrow_ok = false then none
  else
    match ResizeSection M σ rsec unpacked_bytes with
    | none => none
    | some σ1 =>
      match removePackedDynamics σ1.dynamics with
      | none => none
      | some dyn2 =>
        match ResizeSection M σ1 dsec (dyn2.length * dynEntrySize ws) with
        | none => none
        | some σ2 => some ({ σ2 with dynamics := dyn2 }, relocations)

/-! ## The load step (src/elf_file.cc lines 130-259) -/

/-- A load either succeeds, fails recoverably (`LOG(ERROR); return false`),
or aborts the process (`CHECK` failure). -/
inductive LoadRes
  | ok (found_reloc : Bool) (rtype : RelocType)
  | err
  | fatal
  deriving DecidableEq, Repr

/-- The per-section facts `Load` inspects. -/
structure SectionIn where
  name : String
  sh_type : Nat
  sh_size : Nat
  sh_offset : Nat
  sh_addralign : Nat
  d_align : Nat
  deriving DecidableEq, Repr

/-- The input facts `Load` inspects. -/
structure ElfInput where
  kind_is_elf : Bool
  e_type : Nat
  ei_data : Nat
  phdrs : List Phdr
  insections : List SectionIn
  deriving DecidableEq, Repr

/-- `ElfFile::Load` (lines 131-259), in source order: non-ELF input and a
non-shared-object type are recoverable errors; a non-little-endian
encoding is a fatal `CHECK` (line 157); zero or duplicated `PT_DYNAMIC`
program headers are fatal `CHECK`s (lines 173, 177); an alignment above the
preservation bound is a fatal `CHECK` (lines 221, 225); a missing dynamic
section, an unidentifiable or ambiguous relocation-record shape (when a
relocations section exists), and a missing packed-relocations section are
recoverable errors. -/
def Load (f : ElfInput) : LoadRes :=
  if f.kind_is_elf = false then .err
  else if f.e_type ≠ ET_DYN then .err
  else if f.ei_data ≠ ELFDATA2LSB then .fatal
  else if (f.phdrs.filter fun p => p.p_type == PT_DYNAMIC).length ≠ 1 then .fatal
  else if f.insections.any (fun s =>
      decide (s.sh_addralign > kPreserveAlignment)
        || decide (s.d_align > kPreserveAlignment)) then .fatal
  else
    match (f.phdrs.filter fun p => p.p_type == PT_DYNAMIC).getLast? with
    | none => .fatal
    | some dp =>
      let has_rel := f.insections.any fun s => s.sh_type == SHT_REL
      let has_rela := f.insections.any fun s => s.sh_type == SHT_RELA
      let found_reloc := f.insections.any fun s =>
        (s.name == ".rel.dyn" || s.name == ".rela.dyn") && decide (s.sh_size > 0)
      let found_dyn := f.insections.any fun s => s.sh_offset == dp.p_offset
      let found_relr := f.insections.any fun s => s.sh_type == SHT_RELR
      if found_dyn = false then .err
      else if found_reloc && !has_rel && !has_rela then .err
      else if found_reloc && has_rel && has_rela then .err
      else if found_relr = false then .err
      else .ok found_reloc (if has_rel then .REL else .RELA)

/-! ## Codec lemmas -/

/-- If bit `k` (k ≥ 1) of the bitmap word is set, the inner loop emits a record
`k - 1` cursor steps after its starting offset. -/
lemma bitmapRecords_mem (ws : Nat) :
    ∀ k, 1 ≤ k → ∀ entry offset : Nat, entry / 2 ^ k % 2 = 1 →
      offset < 2 ^ (8 * ws) →
      (⟨(offset + (k - 1) * ws) % 2 ^ (8 * ws), R_ARM_RELATIVE, 0⟩ : Rela) ∈
        bitmapRecords ws entry offset := by
  intro k hk
  induction k, hk using Nat.le_induction with
  | base =>
    intro entry offset hbit hoff
    have hne : entry ≠ 0 := by
      intro h
      rw [h] at hbit
      simp at hbit
    rw [bitmapRecords, dif_neg hne]
    have hcond : entry / 2 % 2 = 1 := by
      rw [pow_one] at hbit
      exact hbit
    rw [if_pos hcond]
    apply List.mem_append_left
    simp [Nat.mod_eq_of_lt hoff]
  | succ k hk ih =>
    intro entry offset hbit hoff
    have hne : entry ≠ 0 := by
      intro h
      rw [h] at hbit
      simp at hbit
    rw [bitmapRecords, dif_neg hne]
    apply List.mem_append_right
    have hbit' : entry / 2 / 2 ^ k % 2 = 1 := by
      rw [Nat.div_div_eq_div_mul]
      have h2 : 2 * 2 ^ k = 2 ^ (k + 1) := (pow_succ' 2 k).symm
      rw [h2]
      exact hbit
    have hMpos : 0 < 2 ^ (8 * ws) := Nat.pos_pow_of_pos _ (by norm_num)
    have hoff' : (offset + ws) % 2 ^ (8 * ws) < 2 ^ (8 * ws) := Nat.mod_lt _ hMpos
    have hmem := ih (entry / 2) ((offset + ws) % 2 ^ (8 * ws)) hbit' hoff'
    have heq : ((offset + ws) % 2 ^ (8 * ws) + (k - 1) * ws) % 2 ^ (8 * ws)
        = (offset + (k + 1 - 1) * ws) % 2 ^ (8 * ws) := by
      rw [Nat.mod_add_mod]
      congr 1
      obtain ⟨j, rfl⟩ := Nat.exists_eq_add_of_le hk
      have h1 : 1 + j - 1 = j := by omega
      have h2 : 1 + j + 1 - 1 = 1 + j := by omega
      rw [h1, h2]
      ring
    rw [heq] at hmem
    exact hmem

/-- Every record the inner bitmap loop emits has addend zero. -/
lemma bitmapRecords_addend (ws : Nat) :
    ∀ entry offset : Nat, ∀ r ∈ bitmapRecords ws entry offset, r.r_addend = 0 := by
  intro entry
  induction entry using Nat.strong_induction_on with
  | _ entry ih =>
    intro offset r hr
    by_cases hne : entry = 0
    · rw [hne, bitmapRecords] at hr
      simp at hr
    · rw [bitmapRecords, dif_neg hne] at hr
      rcases List.mem_append.mp hr with h | h
      · by_cases hc : entry / 2 % 2 = 1
        · rw [if_pos hc] at h
          simp at h
          rw [h]
        · rw [if_neg hc] at h
          simp at h
      · exact ih (entry / 2) (Nat.div_lt_self (Nat.pos_of_ne_zero hne) (by norm_num)) _ r h

/-- The outer loop only appends to the caller's vector: its output is the
initial vector followed by the pure decode, and the final base cursor is
independent of the initial vector. -/
lemma unpackLoop_acc (ws : Nat) :
    ∀ packed base acc, unpackLoop ws base packed acc =
      ((unpackLoop ws base packed []).1, acc ++ (unpackLoop ws base packed []).2) := by
  intro packed
  induction packed with
  | nil => intro base acc; simp [unpackLoop]
  | cons e rest ih =>
    intro base acc
    by_cases he : e % 2 = 0
    · simp only [unpackLoop, if_pos he, List.nil_append]
      rw [ih ((e + ws) % 2 ^ (8 * ws)) (acc ++ [(⟨e, R_ARM_RELATIVE, 0⟩ : Rela)]),
        ih ((e + ws) % 2 ^ (8 * ws)) [(⟨e, R_ARM_RELATIVE, 0⟩ : Rela)]]
      simp
    · simp only [unpackLoop, if_neg he, List.nil_append]
      rw [ih ((base + (8 * ws - 1) * ws) % 2 ^ (8 * ws)) (acc ++ bitmapRecords ws e base),
        ih ((base + (8 * ws - 1) * ws) % 2 ^ (8 * ws)) (bitmapRecords ws e base)]
      simp

/-- Every record the decoder emits has addend zero (records already in the
vector are untouched). -/
lemma unpackLoop_addend (ws : Nat) :
    ∀ packed base acc, (∀ r ∈ acc, r.r_addend = 0) →
      ∀ r ∈ (unpackLoop ws base packed acc).2, r.r_addend = 0 := by
  intro packed
  induction packed with
  | nil => intro base acc hacc r hr; exact hacc r hr
  | cons e rest ih =>
    intro base acc hacc r hr
    by_cases he : e % 2 = 0
    · rw [unpackLoop, if_pos he] at hr
      refine ih _ _ ?_ r hr
      intro s hs
      rcases List.mem_append.mp hs with h | h
      · exact hacc s h
      · simp at h
        rw [h]
    · rw [unpackLoop, if_neg he] at hr
      refine ih _ _ ?_ r hr
      intro s hs
      rcases List.mem_append.mp hs with h | h
      · exact hacc s h
      · exact bitmapRecords_addend ws e base s h

/-! ## Conversion lemmas -/

/-- The widening conversion is a map appended to the accumulator. -/
lemma convertRelArray_eq (rel_array : List Rel) :
    ∀ acc, ConvertRelArrayToRelaVector rel_array acc =
      acc ++ rel_array.map (fun r => ⟨r.r_offset, r.r_info, 0⟩) := by
  induction rel_array with
  | nil => intro acc; simp [ConvertRelArrayToRelaVector]
  | cons r rest ih =>
    intro acc
    rw [ConvertRelArrayToRelaVector, ih]
    simp

/-- The narrowing conversion succeeds on an all-zero-addend vector and maps
each record to its addend-less shape. -/
lemma convertRelaVector_some (rela_vector : List Rela)
    (h : ∀ r ∈ rela_vector, r.r_addend = 0) :
    ∀ acc, ConvertRelaVectorToRelVector rela_vector acc =
      some (acc ++ rela_vector.map fun r => ⟨r.r_offset, r.r_info⟩) := by
  induction rela_vector with
  | nil => intro acc; simp [ConvertRelaVectorToRelVector]
  | cons r rest ih =>
    intro acc
    have hr : r.r_addend = 0 := h r (by simp)
    rw [ConvertRelaVectorToRelVector, if_pos hr,
      ih (fun s hs => h s (by simp [hs]))]
    simp

/-- The narrowing conversion is fatal as soon as some addend is non-zero. -/
lemma convertRelaVector_none (rela_vector : List Rela)
    (h : ∃ r ∈ rela_vector, r.r_addend ≠ 0) :
    ∀ acc, ConvertRelaVectorToRelVector rela_vector acc = none := by
  induction rela_vector with
  | nil => simp at h
  | cons r rest ih =>
    intro acc
    by_cases hr : r.r_addend = 0
    · rw [ConvertRelaVectorToRelVector, if_pos hr]
      apply ih
      rcases h with ⟨s, hs, hsa⟩
      rcases List.mem_cons.mp hs with h1 | h1
      · rw [h1] at hsa
        exact absurd hr hsa
      · exact ⟨s, h1, hsa⟩
    · rw [ConvertRelaVectorToRelVector, if_neg hr]

/-- Narrowing after widening reproduces the original addend-less records. -/
lemma narrow_widen_id (l : List Rel) :
    List.map ((fun r : Rela => (⟨r.r_offset, r.r_info⟩ : Rel)) ∘
      fun r : Rel => (⟨r.r_offset, r.r_info, 0⟩ : Rela)) l = l := by
  induction l with
  | nil => rfl
  | cons r rest ihr =>
    rw [List.map_cons, ihr]
    rfl

/-! ## Codec claims -/

/-- C8: decoding the single-word stream `[a]` with `a` even yields exactly one
record, at offset `a`, with the platform relative type and addend zero, and
sets the running base cursor to `a + word_size` (wrapping at the word width). -/
theorem literal_word_decode (ws a : Nat) (ha : a % 2 = 0) :
    unpackLoop ws 0 [a] [] =
      ((a + ws) % 2 ^ (8 * ws), [⟨a, R_ARM_RELATIVE, 0⟩]) := by
  simp [unpackLoop, ha]

theorem literal_word_decode_witness :
    unpackLoop 8 0 [1000] [] =
      ((1000 + 8) % 2 ^ (8 * 8), [⟨1000, R_ARM_RELATIVE, 0⟩]) :=
  literal_word_decode 8 1000 (by decide)

/-- C1: decoding `[a, b]` with `a` even and `b` a bitmap word (low bit set)
whose bit `k` (k ≥ 1) is set yields, besides the literal record at `a`, a
record at `a + word_size + (k-1) * word_size` (the cursor starts at the base
`a + word_size` and advances one word per shift whether or not a record is
emitted), and after the bitmap word the base has advanced by
`(word_bits - 1) * word_size`; all arithmetic wraps at the word width. -/
theorem bitmap_word_decode (ws a b k : Nat)
    (ha : a % 2 = 0) (hb : b % 2 = 1) (hk : 1 ≤ k) (hbit : b / 2 ^ k % 2 = 1) :
    (⟨a, R_ARM_RELATIVE, 0⟩ : Rela) ∈ (unpackLoop ws 0 [a, b] []).2 ∧
    (⟨(a + ws + (k - 1) * ws) % 2 ^ (8 * ws), R_ARM_RELATIVE, 0⟩ : Rela) ∈
      (unpackLoop ws 0 [a, b] []).2 ∧
    (unpackLoop ws 0 [a, b] []).1 =
      ((a + ws) % 2 ^ (8 * ws) + (8 * ws - 1) * ws) % 2 ^ (8 * ws) := by
  have hb' : ¬ b % 2 = 0 := by omega
  have hstep : unpackLoop ws 0 [a, b] [] =
      (((a + ws) % 2 ^ (8 * ws) + (8 * ws - 1) * ws) % 2 ^ (8 * ws),
        ⟨a, R_ARM_RELATIVE, 0⟩ :: bitmapRecords ws b ((a + ws) % 2 ^ (8 * ws))) := by
    simp [unpackLoop, ha, hb']
  have hMpos : 0 < 2 ^ (8 * ws) := Nat.pos_pow_of_pos _ (by norm_num)
  refine ⟨?_, ?_, ?_⟩
  · rw [hstep]; exact List.mem_cons_self _ _
  · rw [hstep]
    have hmem := bitmapRecords_mem ws k hk b ((a + ws) % 2 ^ (8 * ws)) hbit
      (Nat.mod_lt _ hMpos)
    have heq : ((a + ws) % 2 ^ (8 * ws) + (k - 1) * ws) % 2 ^ (8 * ws)
        = (a + ws + (k - 1) * ws) % 2 ^ (8 * ws) := Nat.mod_add_mod _ _ _
    rw [heq] at hmem
    exact List.mem_cons_of_mem _ hmem
  · rw [hstep]

theorem bitmap_word_decode_witness :
    (⟨96, R_ARM_RELATIVE, 0⟩ : Rela) ∈ (unpackLoop 4 0 [96, 5] []).2 ∧
    (⟨(96 + 4 + (2 - 1) * 4) % 2 ^ (8 * 4), R_ARM_RELATIVE, 0⟩ : Rela) ∈
      (unpackLoop 4 0 [96, 5] []).2 ∧
    (unpackLoop 4 0 [96, 5] []).1 =
      ((96 + 4) % 2 ^ (8 * 4) + (8 * 4 - 1) * 4) % 2 ^ (8 * 4) :=
  bitmap_word_decode 4 96 5 2 (by decide) (by decide) (by decide) (by decide)

/-- C9: the unpack pipeline's working vector is always the pre-existing
records, unchanged and in order, followed by the decoded records in decode
order (never merged, sorted or deduplicated); for the addend-less on-disk
shape the narrowing back to `Rel` produces exactly the original `Rel` records
followed by the decoded ones. -/
theorem unpack_appends_decoded (ws : Nat) (packed : List Nat)
    (origs : List Rela) (origRel : List Rel) :
    UnpackRelocations ws packed origs = origs ++ decodeRelr ws packed ∧
    (UnpackRelocations ws packed origs).length =
      origs.length + (decodeRelr ws packed).length ∧
    ConvertRelaVectorToRelVector
        (UnpackRelocations ws packed (ConvertRelArrayToRelaVector origRel [])) [] =
      some (origRel ++ (decodeRelr ws packed).map fun r => ⟨r.r_offset, r.r_info⟩) := by
  have happ : UnpackRelocations ws packed origs = origs ++ decodeRelr ws packed := by
    rw [UnpackRelocations, decodeRelr, unpackLoop_acc]
  refine ⟨happ, by rw [happ]; simp, ?_⟩
  have hwiden : ConvertRelArrayToRelaVector origRel [] =
      origRel.map (fun r => ⟨r.r_offset, r.r_info, 0⟩) := by
    rw [convertRelArray_eq]; simp
  have happ2 : UnpackRelocations ws packed (ConvertRelArrayToRelaVector origRel []) =
      origRel.map (fun r => ⟨r.r_offset, r.r_info, 0⟩) ++ decodeRelr ws packed := by
    rw [UnpackRelocations, decodeRelr, unpackLoop_acc, hwiden]
  rw [happ2]
  have hzero : ∀ r ∈ origRel.map (fun r => (⟨r.r_offset, r.r_info, 0⟩ : Rela))
      ++ decodeRelr ws packed, r.r_addend = 0 := by
    intro r hr
    rcases List.mem_append.mp hr with h | h
    · rcases List.mem_map.mp h with ⟨s, _, hs⟩
      rw [← hs]
    · exact unpackLoop_addend ws packed 0 [] (by simp) r h
  rw [convertRelaVector_some _ hzero]
  simp only [List.nil_append, List.map_append, List.map_map, Option.some.injEq]
  rw [narrow_widen_id]

/-- C10: in the addend-less (REL) pipeline the working `Rela` vector —
originals widened with addend zero plus decoded records — carries only zero
addends, so the fatal non-zero-addend check inside the narrowing conversion
is unreachable: the conversion always succeeds. -/
theorem rel_narrowing_total (ws : Nat) (packed : List Nat) (origRel : List Rel) :
    (∀ r ∈ UnpackRelocations ws packed (ConvertRelArrayToRelaVector origRel []),
      r.r_addend = 0) ∧
    (ConvertRelaVectorToRelVector
        (UnpackRelocations ws packed (ConvertRelArrayToRelaVector origRel []))
        []).isSome = true := by
  have hzero : ∀ r ∈ UnpackRelocations ws packed (ConvertRelArrayToRelaVector origRel []),
      r.r_addend = 0 := by
    intro r hr
    rw [UnpackRelocations] at hr
    refine unpackLoop_addend ws packed 0 _ ?_ r hr
    intro s hs
    rw [convertRelArray_eq] at hs
    simp at hs
    rcases hs with ⟨o, _, ho⟩
    rw [← ho]
  refine ⟨hzero, ?_⟩
  rw [convertRelaVector_some _ hzero]
  rfl

theorem rel_narrowing_total_witness :
    (ConvertRelaVectorToRelVector
        (UnpackRelocations 4 [96, 5] (ConvertRelArrayToRelaVector [⟨12, 23⟩] []))
        []).isSome = true :=
  (rel_narrowing_total 4 [96, 5] [⟨12, 23⟩]).2

/-- C7: widening addend-less records always succeeds, preserves offset and
info, and gives every output record addend exactly zero; narrowing
addend-bearing records fails fatally exactly when some record carries a
non-zero addend, and on success reproduces every record's offset and info
(never silently dropping an addend). -/
theorem shape_conversion_spec (rels : List Rel) (relas : List Rela) :
    (ConvertRelArrayToRelaVector rels [] =
      rels.map fun r => ⟨r.r_offset, r.r_info, 0⟩) ∧
    (∀ r ∈ ConvertRelArrayToRelaVector rels [], r.r_addend = 0) ∧
    ((ConvertRelaVectorToRelVector relas [] = none) ↔
      ∃ r ∈ relas, r.r_addend ≠ 0) ∧
    (∀ out, ConvertRelaVectorToRelVector relas [] = some out →
      out = relas.map fun r => ⟨r.r_offset, r.r_info⟩) := by
  have hw : ConvertRelArrayToRelaVector rels [] =
      rels.map fun r => ⟨r.r_offset, r.r_info, 0⟩ := by
    rw [convertRelArray_eq]; simp
  refine ⟨hw, ?_, ⟨?_, ?_⟩, ?_⟩
  · intro r hr
    rw [hw] at hr
    rcases List.mem_map.mp hr with ⟨s, _, hs⟩
    rw [← hs]
  · intro hnone
    by_contra hall
    push_neg at hall
    rw [convertRelaVector_some relas hall] at hnone
    exact Option.noConfusion hnone
  · intro hex
    exact convertRelaVector_none relas hex []
  · intro out hout
    by_cases hall : ∀ r ∈ relas, r.r_addend = 0
    · rw [convertRelaVector_some relas hall] at hout
      simp at hout
      rw [← hout]
    · push_neg at hall
      rw [convertRelaVector_none relas hall] at hout
      exact Option.noConfusion hout

theorem shape_conversion_spec_witness :
    (ConvertRelArrayToRelaVector [⟨4, 23⟩] [] =
      ([⟨4, 23⟩] : List Rel).map fun r => ⟨r.r_offset, r.r_info, 0⟩) ∧
    ((ConvertRelaVectorToRelVector [⟨8, 23, 5⟩] [] = none) ↔
      ∃ r ∈ ([⟨8, 23, 5⟩] : List Rela), r.r_addend ≠ 0) := by
  have h := shape_conversion_spec [⟨4, 23⟩] [⟨8, 23, 5⟩]
  exact ⟨h.1, h.2.2.1⟩

/-! ## Wraparound arithmetic lemmas -/

lemma addOff_lt (M : Nat) (hM : 0 < M) (x : Nat) (h : Int) : addOff M x h < M := by
  unfold addOff
  have hMi : (0 : Int) < (M : Int) := by exact_mod_cast hM
  have h0 : (0 : Int) ≤ ((x : Int) + h) % (M : Int) := Int.emod_nonneg _ (by omega)
  have h1 : ((x : Int) + h) % (M : Int) < (M : Int) := Int.emod_lt_of_pos _ hMi
  omega

lemma addOff_neg_cancel (M : Nat) (hM : 0 < M) (x : Nat) (hx : x < M) (h : Int) :
    addOff M (addOff M x h) (-h) = x := by
  unfold addOff
  have hMi : (0 : Int) < (M : Int) := by exact_mod_cast hM
  have h0 : (0 : Int) ≤ ((x : Int) + h) % (M : Int) := Int.emod_nonneg _ (by omega)
  rw [Int.toNat_of_nonneg h0, Int.emod_add_emod]
  have hxh : (x : Int) + h + -h = (x : Int) := by ring
  rw [hxh, Int.emod_eq_of_lt (by omega) (by exact_mod_cast hx)]
  exact Int.toNat_natCast x

lemma addOff_zero (M : Nat) (x : Nat) (hx : x < M) : addOff M x 0 = x := by
  unfold addOff
  rw [Int.add_zero, Int.emod_eq_of_lt (by omega) (by exact_mod_cast hx)]
  exact Int.toNat_natCast x

/-! ## `mapIdx` lemmas -/

lemma mapIdx_length (f : α → α) : ∀ (t : Nat) (l : List α),
    (mapIdx f t l).length = l.length := by
  intro t l
  induction l generalizing t with
  | nil => cases t <;> rfl
  | cons x rest ih =>
    cases t with
    | zero => rfl
    | succ t => simp [mapIdx, ih]

lemma mapIdx_getElem? (f : α → α) : ∀ (t : Nat) (l : List α) (i : Nat),
    (mapIdx f t l)[i]? = if i = t then (l[i]?).map f else l[i]? := by
  intro t l
  induction l generalizing t with
  | nil => intro i; cases t <;> simp [mapIdx]
  | cons x rest ih =>
    intro i
    cases t with
    | zero =>
      cases i with
      | zero => simp [mapIdx]
      | succ i => simp [mapIdx]
    | succ t =>
      cases i with
      | zero => simp [mapIdx]
      | succ i => simpa [mapIdx] using ih t i


/-! ## Roundtrip lemmas: a resize followed by the inverse resize restores
every table -/

lemma shdr_roundtrip (M : Nat) (hM : 0 < M) (hs : Nat) (h : Int) (x : Shdr)
    (hboff : x.sh_offset < M)
    (hH : x.sh_offset > hs → addOff M x.sh_offset h > hs) :
    shiftShdrOffset M hs (-h) (shiftShdrOffset M hs h x) = x := by
  obtain ⟨a, o, z⟩ := x
  unfold shiftShdrOffset
  by_cases ho : o > hs
  · rw [if_pos ho]
    rw [if_pos (hH ho)]
    rw [addOff_neg_cancel M hM o hboff h]
  · rw [if_neg ho]
    rw [if_neg ho]

lemma shdr_roundtrip_target (M : Nat) (hM : 0 < M) (hs : Nat) (h : Int) (x : Shdr)
    (hboff : x.sh_offset < M) (hbsz : x.sh_size < M)
    (hH : x.sh_offset > hs → addOff M x.sh_offset h > hs) :
    shiftShdrOffset M hs (-h) (resizeShdrSize M (-h)
      (shiftShdrOffset M hs h (resizeShdrSize M h x))) = x := by
  obtain ⟨a, o, z⟩ := x
  unfold shiftShdrOffset resizeShdrSize
  by_cases ho : o > hs
  · rw [if_pos ho]
    rw [if_pos (hH ho)]
    rw [addOff_neg_cancel M hM o hboff h, addOff_neg_cancel M hM z hbsz h]
  · rw [if_neg ho]
    rw [if_neg ho]
    rw [addOff_neg_cancel M hM z hbsz h]

/-- The sections table of a resize followed by the inverse resize. -/
lemma sections_roundtrip (M : Nat) (hM : 0 < M) (hs : Nat) (h : Int) (s : Nat)
    (L : List Shdr)
    (hb : ∀ sh ∈ L, sh.sh_offset < M ∧ sh.sh_size < M)
    (H1 : ∀ sh ∈ L, sh.sh_offset > hs → addOff M sh.sh_offset h > hs) :
    AdjustSectionHeadersForHole M
      (mapIdx (resizeShdrSize M (-h)) s
        (AdjustSectionHeadersForHole M (mapIdx (resizeShdrSize M h) s L) hs h))
      hs (-h) = L := by
  apply List.ext_getElem?
  intro i
  simp only [AdjustSectionHeadersForHole, List.getElem?_map, mapIdx_getElem?]
  cases hLi : L[i]? with
  | none => simp [hLi]
  | some x =>
    have hxmem : x ∈ L := by
      obtain ⟨hlt, hget⟩ := List.getElem?_eq_some.mp hLi
      exact hget ▸ List.getElem_mem hlt
    by_cases hi : i = s
    · rw [if_pos hi, if_pos hi]
      simp only [Option.map_some']
      exact congrArg some
        (shdr_roundtrip_target M hM hs h x (hb x hxmem).1 (hb x hxmem).2 (H1 x hxmem))
    · rw [if_neg hi, if_neg hi]
      simp only [Option.map_some']
      exact congrArg some (shdr_roundtrip M hM hs h x (hb x hxmem).1 (H1 x hxmem))

lemma phdr_roundtrip (M : Nat) (hM : 0 < M) (hs : Nat) (h : Int) (p : Phdr)
    (hboff : p.p_offset < M)
    (hH : p.p_offset > hs → addOff M p.p_offset h > hs) :
    shiftPhdrOffset M hs (-h) (shiftPhdrOffset M hs h p) = p := by
  obtain ⟨ty, o, va, fz, mz⟩ := p
  unfold shiftPhdrOffset
  by_cases hty : ty = PT_GNU_STACK
  · rw [if_pos hty, if_pos hty]
  · by_cases ho : o > hs
    · rw [if_neg hty, if_pos ho]
      rw [if_neg hty, if_pos (hH ho)]
      rw [addOff_neg_cancel M hM o hboff h]
    · rw [if_neg hty, if_neg ho]
      rw [if_neg hty, if_neg ho]

lemma phdr_roundtrip_target (M : Nat) (hM : 0 < M) (hs : Nat) (h : Int) (p : Phdr)
    (hbf : p.p_filesz < M) (hbm : p.p_memsz < M)
    (hmatch : loadSegmentMatch M hs p = true) :
    shiftPhdrOffset M hs (-h) (growPhdr M (-h)
      (shiftPhdrOffset M hs h (growPhdr M h p))) = p := by
  obtain ⟨ty, o, va, fz, mz⟩ := p
  simp only [loadSegmentMatch, Bool.and_eq_true, beq_iff_eq, decide_eq_true_eq] at hmatch
  obtain ⟨⟨hty, ho⟩, hsum⟩ := hmatch
  have hty2 : ty = PT_LOAD := hty
  have ho2 : o ≤ hs := ho
  have hty' : ty ≠ PT_GNU_STACK := by
    rw [hty2]
    decide
  have ho' : ¬ o > hs := by omega
  unfold shiftPhdrOffset growPhdr
  rw [if_neg hty', if_neg ho']
  rw [if_neg hty', if_neg ho']
  rw [addOff_neg_cancel M hM fz hbf h, addOff_neg_cancel M hM mz hbm h]

/-- The program-header table of a resize followed by the inverse resize,
with the same target index. -/
lemma phdrs_roundtrip (M : Nat) (hM : 0 < M) (hs : Nat) (h : Int) (t : Nat)
    (P : List Phdr)
    (hb : ∀ p ∈ P, p.p_offset < M ∧ p.p_filesz < M ∧ p.p_memsz < M)
    (H1 : ∀ p ∈ P, p.p_offset > hs → addOff M p.p_offset h > hs)
    (htgt : ∀ p, P[t]? = some p → loadSegmentMatch M hs p = true) :
    AdjustProgramHeaderFields M
      (mapIdx (growPhdr M (-h)) t
        (AdjustProgramHeaderFields M (mapIdx (growPhdr M h) t P) hs h))
      hs (-h) = P := by
  apply List.ext_getElem?
  intro i
  simp only [AdjustProgramHeaderFields, List.getElem?_map, mapIdx_getElem?]
  cases hLi : P[i]? with
  | none => simp [hLi]
  | some p =>
    have hpmem : p ∈ P := by
      obtain ⟨hlt, hget⟩ := List.getElem?_eq_some.mp hLi
      exact hget ▸ List.getElem_mem hlt
    by_cases hi : i = t
    · rw [if_pos hi, if_pos hi]
      simp only [Option.map_some']
      exact congrArg some
        (phdr_roundtrip_target M hM hs h p (hb p hpmem).2.1 (hb p hpmem).2.2
          (htgt p (hi ▸ hLi)))
    · rw [if_neg hi, if_neg hi]
      simp only [Option.map_some']
      exact congrArg some (phdr_roundtrip M hM hs h p (hb p hpmem).1 (H1 p hpmem))

lemma dyn_roundtrip (M : Nat) (hM : 0 < M) (h : Int) (d : Dyn)
    (hd : d.d_val < M) :
    adjustDynamicEntry M (-h) (adjustDynamicEntry M h d) = d := by
  obtain ⟨tag, v⟩ := d
  unfold adjustDynamicEntry
  by_cases hR : tag = DT_RELSZ ∨ tag = DT_RELASZ
  · by_cases hMp : tag = DT_MIPS_RLD_MAP_REL
    · exfalso
      rcases hR with hR | hR <;> rw [hR] at hMp <;> exact absurd hMp (by decide)
    · rw [if_pos hR]
      rw [if_neg hMp]
      rw [if_pos hR]
      rw [if_neg hMp]
      rw [addOff_neg_cancel M hM v hd h]
  · by_cases hMp : tag = DT_MIPS_RLD_MAP_REL
    · rw [if_neg hR, if_pos hMp]
      rw [if_neg hR, if_pos hMp]
      rw [addOff_neg_cancel M hM v hd h]
    · rw [if_neg hR, if_neg hMp, if_neg hR, if_neg hMp]

lemma dynamics_roundtrip (M : Nat) (hM : 0 < M) (h : Int) (D : List Dyn)
    (hb : ∀ d ∈ D, d.d_val < M) :
    AdjustDynamicSectionForHole M (AdjustDynamicSectionForHole M D h) (-h) = D := by
  unfold AdjustDynamicSectionForHole
  rw [List.map_map]
  apply List.ext_getElem?
  intro i
  rw [List.getElem?_map]
  cases hDi : D[i]? with
  | none => rfl
  | some d =>
    have hdmem : d ∈ D := by
      obtain ⟨hlt, hget⟩ := List.getElem?_eq_some.mp hDi
      exact hget ▸ List.getElem_mem hlt
    simp only [Option.map_some', Function.comp_apply]
    exact congrArg some (dyn_roundtrip M hM h d (hb d hdmem))

/-! ## Finder lemmas -/

lemma findLoad_none (M hs : Nat) :
    ∀ l : List Phdr, (∀ p ∈ l, loadSegmentMatch M hs p = false) →
      FindLoadSegmentForHole M hs l = none := by
  intro l
  induction l with
  | nil => intro _; rfl
  | cons p rest ih =>
    intro hl
    rw [FindLoadSegmentForHole,
      if_neg (by simp [hl p (List.mem_cons_self p rest)]),
      ih fun q hq => hl q (List.mem_cons_of_mem p hq)]
    rfl

lemma findLoad_some (M hs : Nat) :
    ∀ (l : List Phdr) (t : Nat), FindLoadSegmentForHole M hs l = some t →
      ∃ p, l[t]? = some p ∧ loadSegmentMatch M hs p = true ∧
        ∀ j q, j < t → l[j]? = some q → loadSegmentMatch M hs q = false := by
  intro l
  induction l with
  | nil =>
    intro t ht
    exact absurd ht (by simp [FindLoadSegmentForHole])
  | cons p rest ih =>
    intro t ht
    rw [FindLoadSegmentForHole] at ht
    by_cases hm : loadSegmentMatch M hs p = true
    · rw [if_pos hm] at ht
      have ht0 : t = 0 := by
        have := Option.some.inj ht
        omega
      subst ht0
      exact ⟨p, by simp, hm, fun j q hj _ => absurd hj (by omega)⟩
    · rw [if_neg hm] at ht
      obtain ⟨t', ht', rfl⟩ := Option.map_eq_some'.mp ht
      obtain ⟨q, hq, hqm, hqfirst⟩ := ih t' ht'
      refine ⟨q, by simpa using hq, hqm, ?_⟩
      intro j r hj hjr
      cases j with
      | zero =>
        simp only [List.getElem?_cons_zero, Option.some.injEq] at hjr
        rw [← hjr]
        exact Bool.eq_false_iff.mpr hm
      | succ j =>
        exact hqfirst j r (by omega) (by simpa using hjr)

lemma findLoad_after (M hs : Nat) (h : Int) :
    ∀ (l : List Phdr) (t : Nat),
      FindLoadSegmentForHole M hs l = some t →
      (∀ p ∈ l, p.p_offset > hs → addOff M p.p_offset h > hs) →
      (∀ p ∈ l, loadSegmentMatch M hs p = true →
        (p.p_offset + addOff M p.p_filesz h) % M ≥ hs) →
      FindLoadSegmentForHole M hs
        (AdjustProgramHeaderFields M (mapIdx (growPhdr M h) t l) hs h) = some t := by
  intro l
  induction l with
  | nil =>
    intro t ht
    exact absurd ht (by simp [FindLoadSegmentForHole])
  | cons p rest ih =>
    intro t ht H1 H3
    rw [FindLoadSegmentForHole] at ht
    by_cases hm : loadSegmentMatch M hs p = true
    · rw [if_pos hm] at ht
      have ht0 : t = 0 := (Option.some.inj ht).symm
      subst ht0
      have hmm := hm
      simp only [loadSegmentMatch, Bool.and_eq_true, beq_iff_eq,
        decide_eq_true_eq] at hmm
      obtain ⟨⟨hty, ho⟩, _⟩ := hmm
      have hshift : shiftPhdrOffset M hs h (growPhdr M h p) = growPhdr M h p := by
        unfold shiftPhdrOffset growPhdr
        rw [if_neg (by
          show ¬ p.p_type = PT_GNU_STACK
          rw [hty]
          decide)]
        rw [if_neg (by
          show ¬ p.p_offset > hs
          omega)]
      have hmatch' : loadSegmentMatch M hs (growPhdr M h p) = true := by
        simp only [loadSegmentMatch, growPhdr, Bool.and_eq_true, beq_iff_eq,
          decide_eq_true_eq]
        exact ⟨⟨hty, ho⟩, H3 p (List.mem_cons_self p rest) hm⟩
      show FindLoadSegmentForHole M hs
        (shiftPhdrOffset M hs h (growPhdr M h p) ::
          (mapIdx (growPhdr M h) 0 (p :: rest)).tail.map (shiftPhdrOffset M hs h))
        = some 0
      rw [hshift, FindLoadSegmentForHole, if_pos hmatch']
    · rw [if_neg hm] at ht
      obtain ⟨t', ht', rfl⟩ := Option.map_eq_some'.mp ht
      have hshift : loadSegmentMatch M hs (shiftPhdrOffset M hs h p) = false := by
        unfold shiftPhdrOffset
        by_cases hty : p.p_type = PT_GNU_STACK
        · rw [if_pos hty]
          exact Bool.eq_false_iff.mpr hm
        · rw [if_neg hty]
          by_cases ho : p.p_offset > hs
          · rw [if_pos ho]
            have hoff' := H1 p (List.mem_cons_self p rest) ho
            have hnle : ¬ (addOff M p.p_offset h ≤ hs) := by omega
            simp [loadSegmentMatch, hnle]
          · rw [if_neg ho]
            exact Bool.eq_false_iff.mpr hm
      show FindLoadSegmentForHole M hs
        (shiftPhdrOffset M hs h p ::
          (AdjustProgramHeaderFields M (mapIdx (growPhdr M h) t' rest) hs h))
        = some (t' + 1)
      rw [FindLoadSegmentForHole, if_neg (by rw [hshift]; exact Bool.false_ne_true),
        ih t' ht' (fun q hq => H1 q (List.mem_cons_of_mem p hq))
          (fun q hq => H3 q (List.mem_cons_of_mem p hq))]
      rfl

/-! ## Characterization of a successful resize -/

lemma addOff_sub_self (M : Nat) (a v : Nat) (hv : v < M) :
    addOff M a ((v : Int) - (a : Int)) = v := by
  unfold addOff
  have : (a : Int) + ((v : Int) - (a : Int)) = (v : Int) := by ring
  rw [this, Int.emod_eq_of_lt (by omega) (by exact_mod_cast hv)]
  exact Int.toNat_natCast v

lemma offVal_roundtrip (M : Nat) (hM : 0 < M) (x hs : Nat) (h : Int)
    (hx : x < M) (hH : x > hs → addOff M x h > hs) :
    (if (if x > hs then addOff M x h else x) > hs then
      addOff M (if x > hs then addOff M x h else x) (-h)
    else (if x > hs then addOff M x h else x)) = x := by
  by_cases ho : x > hs
  · rw [if_pos ho, if_pos (hH ho), addOff_neg_cancel M hM x hx h]
  · rw [if_neg ho, if_neg ho]

/-- What a successful, size-changing `ResizeSection` did: the section was
non-empty, a covering `PT_LOAD` segment was found, and the new state is the
hole propagation through every table with `hole_start` the section's offset
and `hole_size` the signed size delta. -/
lemma resize_some_elim (M : Nat) (σ : ElfState) (s : Nat) (v : Nat) (σ' : ElfState)
    (sec : Shdr) (hsec : σ.sections[s]? = some sec) (hv : sec.sh_size ≠ v)
    (hres : ResizeSection M σ s v = some σ') :
    sec.sh_size ≠ 0 ∧
    ∃ t, FindLoadSegmentForHole M sec.sh_offset σ.phdrs = some t ∧
      σ' = { e_phoff := if σ.e_phoff > sec.sh_offset then
               addOff M σ.e_phoff ((v : Int) - (sec.sh_size : Int)) else σ.e_phoff,
             e_shoff := if σ.e_shoff > sec.sh_offset then
               addOff M σ.e_shoff ((v : Int) - (sec.sh_size : Int)) else σ.e_shoff,
             sections := AdjustSectionHeadersForHole M
               (mapIdx (resizeShdrSize M ((v : Int) - (sec.sh_size : Int))) s σ.sections)
               sec.sh_offset ((v : Int) - (sec.sh_size : Int)),
             phdrs := AdjustProgramHeaderFields M
               (mapIdx (growPhdr M ((v : Int) - (sec.sh_size : Int))) t σ.phdrs)
               sec.sh_offset ((v : Int) - (sec.sh_size : Int)),
             dynamics := AdjustDynamicSectionForHole M σ.dynamics
               ((v : Int) - (sec.sh_size : Int)) } := by
  unfold ResizeSection at hres
  rw [hsec] at hres
  simp only [if_neg hv] at hres
  by_cases h0 : sec.sh_size = 0
  · rw [if_pos h0] at hres
    exact absurd hres (by simp)
  · rw [if_neg h0] at hres
    refine ⟨h0, ?_⟩
    unfold RewriteProgramHeadersForHole at hres
    cases hfind : FindLoadSegmentForHole M sec.sh_offset σ.phdrs with
    | none =>
      rw [hfind] at hres
      exact absurd hres (by simp)
    | some t =>
      rw [hfind] at hres
      dsimp only at hres
      refine ⟨t, rfl, ?_⟩
      by_cases hdyn : dynamicSectionFound
        { e_phoff := (AdjustElfHeaderForHole M σ.e_phoff σ.e_shoff sec.sh_offset
            ((v : Int) - (sec.sh_size : Int))).1,
          e_shoff := (AdjustElfHeaderForHole M σ.e_phoff σ.e_shoff sec.sh_offset
            ((v : Int) - (sec.sh_size : Int))).2,
          sections := AdjustSectionHeadersForHole M
            (mapIdx (resizeShdrSize M ((v : Int) - (sec.sh_size : Int))) s σ.sections)
            sec.sh_offset ((v : Int) - (sec.sh_size : Int)),
          phdrs := AdjustProgramHeaderFields M
            (mapIdx (growPhdr M ((v : Int) - (sec.sh_size : Int))) t σ.phdrs)
            sec.sh_offset ((v : Int) - (sec.sh_size : Int)),
          dynamics := σ.dynamics } = true
      · rw [if_pos hdyn] at hres
        have := Option.some.inj hres
        rw [← this]
        rfl
      · rw [if_neg hdyn] at hres
        exact absurd hres (by simp)

/-- A resize to the current size is a no-op returning the unchanged state. -/
lemma resize_noop (M : Nat) (σ : ElfState) (s : Nat) (v : Nat) (sec : Shdr)
    (hsec : σ.sections[s]? = some sec) (hveq : sec.sh_size = v) :
    ResizeSection M σ s v = some σ := by
  unfold ResizeSection
  rw [hsec]
  dsimp only
  rw [if_pos hveq]

/-- C2: `ResizeSection(s, v)` immediately followed by
`ResizeSection(s, original_size)` restores the whole file state — the main
header's `e_phoff`/`e_shoff`, every section header, every program header and
every dynamic entry value — provided the file is well-formed for the hole:
every offset field lies below the word modulus, no offset strictly past the
hole start is carried to or below it by the (wrapping) shift, and the
covering `PT_LOAD` segment still covers the hole start after its size
changes. -/
theorem hole_idempotence (M : Nat) (hM : 0 < M) (σ : ElfState) (s v : Nat)
    (sec : Shdr) (hsec : σ.sections[s]? = some sec) (hvM : v < M)
    (hbph : σ.e_phoff < M) (hbsh : σ.e_shoff < M)
    (hbsec : ∀ sh ∈ σ.sections, sh.sh_offset < M ∧ sh.sh_size < M)
    (hbp : ∀ p ∈ σ.phdrs, p.p_offset < M ∧ p.p_filesz < M ∧ p.p_memsz < M)
    (hbd : ∀ d ∈ σ.dynamics, d.d_val < M)
    (H1ph : σ.e_phoff > sec.sh_offset →
      addOff M σ.e_phoff ((v : Int) - (sec.sh_size : Int)) > sec.sh_offset)
    (H1sh : σ.e_shoff > sec.sh_offset →
      addOff M σ.e_shoff ((v : Int) - (sec.sh_size : Int)) > sec.sh_offset)
    (H1sec : ∀ sh ∈ σ.sections, sh.sh_offset > sec.sh_offset →
      addOff M sh.sh_offset ((v : Int) - (sec.sh_size : Int)) > sec.sh_offset)
    (H1p : ∀ p ∈ σ.phdrs, p.p_offset > sec.sh_offset →
      addOff M p.p_offset ((v : Int) - (sec.sh_size : Int)) > sec.sh_offset)
    (H3 : ∀ p ∈ σ.phdrs, loadSegmentMatch M sec.sh_offset p = true →
      (p.p_offset + addOff M p.p_filesz ((v : Int) - (sec.sh_size : Int))) % M
        ≥ sec.sh_offset)
    (σ' σ'' : ElfState)
    (h1 : ResizeSection M σ s v = some σ')
    (h2 : ResizeSection M σ' s sec.sh_size = some σ'') :
    σ'' = σ := by
  by_cases hveq : sec.sh_size = v
  · have hσ' : σ' = σ := by
      have hnoop := resize_noop M σ s v sec hsec hveq
      rw [hnoop] at h1
      exact (Option.some.inj h1).symm
    rw [hσ'] at h2
    have hnoop2 := resize_noop M σ s sec.sh_size sec hsec rfl
    rw [hnoop2] at h2
    exact (Option.some.inj h2).symm
  · obtain ⟨h0, t, hfind, hσ'⟩ := resize_some_elim M σ s v σ' sec hsec hveq h1
    have hsec' : σ'.sections[s]? =
        some (shiftShdrOffset M sec.sh_offset ((v : Int) - (sec.sh_size : Int))
          (resizeShdrSize M ((v : Int) - (sec.sh_size : Int)) sec)) := by
      rw [hσ']
      show (AdjustSectionHeadersForHole M
        (mapIdx (resizeShdrSize M ((v : Int) - (sec.sh_size : Int))) s σ.sections)
        sec.sh_offset ((v : Int) - (sec.sh_size : Int)))[s]? = _
      simp [AdjustSectionHeadersForHole, List.getElem?_map, mapIdx_getElem?, hsec]
    have hsecval : shiftShdrOffset M sec.sh_offset ((v : Int) - (sec.sh_size : Int))
        (resizeShdrSize M ((v : Int) - (sec.sh_size : Int)) sec)
        = { sec with sh_size := v } := by
      unfold shiftShdrOffset resizeShdrSize
      rw [if_neg (show ¬ sec.sh_offset > sec.sh_offset by omega)]
      rw [addOff_sub_self M sec.sh_size v hvM]
    rw [hsecval] at hsec'
    obtain ⟨h0', t₂, hfind₂, hσ''⟩ := resize_some_elim M σ' s sec.sh_size σ''
      ({ sec with sh_size := v }) hsec' (show v ≠ sec.sh_size from fun hc => hveq hc.symm) h2
    dsimp only at hfind₂ hσ''
    have hneg : (sec.sh_size : Int) - (v : Int) =
        -((v : Int) - (sec.sh_size : Int)) := by ring
    rw [hneg] at hσ''
    rw [hσ'] at hfind₂
    dsimp only at hfind₂
    have hfind' := findLoad_after M sec.sh_offset ((v : Int) - (sec.sh_size : Int))
      σ.phdrs t hfind H1p H3
    have ht2 : t₂ = t := by
      rw [hfind'] at hfind₂
      exact (Option.some.inj hfind₂).symm
    rw [ht2] at hσ''
    rw [hσ'] at hσ''
    dsimp only at hσ''
    rw [hσ'']
    have hE1 : (if (if σ.e_phoff > sec.sh_offset then
          addOff M σ.e_phoff ((v : Int) - (sec.sh_size : Int)) else σ.e_phoff) > sec.sh_offset
        then addOff M (if σ.e_phoff > sec.sh_offset then
          addOff M σ.e_phoff ((v : Int) - (sec.sh_size : Int)) else σ.e_phoff)
          (-((v : Int) - (sec.sh_size : Int)))
        else (if σ.e_phoff > sec.sh_offset then
          addOff M σ.e_phoff ((v : Int) - (sec.sh_size : Int)) else σ.e_phoff)) = σ.e_phoff :=
      offVal_roundtrip M hM σ.e_phoff sec.sh_offset ((v : Int) - (sec.sh_size : Int)) hbph H1ph
    have hE2 : (if (if σ.e_shoff > sec.sh_offset then
          addOff M σ.e_shoff ((v : Int) - (sec.sh_size : Int)) else σ.e_shoff) > sec.sh_offset
        then addOff M (if σ.e_shoff > sec.sh_offset then
          addOff M σ.e_shoff ((v : Int) - (sec.sh_size : Int)) else σ.e_shoff)
          (-((v : Int) - (sec.sh_size : Int)))
        else (if σ.e_shoff > sec.sh_offset then
          addOff M σ.e_shoff ((v : Int) - (sec.sh_size : Int)) else σ.e_shoff)) = σ.e_shoff :=
      offVal_roundtrip M hM σ.e_shoff sec.sh_offset ((v : Int) - (sec.sh_size : Int)) hbsh H1sh
    have hSS := sections_roundtrip M hM sec.sh_offset ((v : Int) - (sec.sh_size : Int)) s
      σ.sections hbsec H1sec
    have htgt : ∀ p, σ.phdrs[t]? = some p →
        loadSegmentMatch M sec.sh_offset p = true := by
      intro p hp
      obtain ⟨q, hq, hqm, _⟩ := findLoad_some M sec.sh_offset σ.phdrs t hfind
      rw [hp] at hq
      rw [Option.some.inj hq]
      exact hqm
    have hPP := phdrs_roundtrip M hM sec.sh_offset ((v : Int) - (sec.sh_size : Int)) t
      σ.phdrs hbp H1p htgt
    have hDD := dynamics_roundtrip M hM ((v : Int) - (sec.sh_size : Int)) σ.dynamics hbd
    rw [hE1, hE2, hSS, hPP, hDD]

/-! ## Field-preservation lemmas -/

lemma shiftShdr_addr (M hs : Nat) (h : Int) (sh : Shdr) :
    (shiftShdrOffset M hs h sh).sh_addr = sh.sh_addr := by
  unfold shiftShdrOffset
  split <;> rfl

lemma shiftShdr_offset (M hs : Nat) (h : Int) (sh : Shdr) :
    (shiftShdrOffset M hs h sh).sh_offset =
      if sh.sh_offset > hs then addOff M sh.sh_offset h else sh.sh_offset := by
  unfold shiftShdrOffset
  split <;> simp_all

lemma shiftPhdr_filesz (M hs : Nat) (h : Int) (p : Phdr) :
    (shiftPhdrOffset M hs h p).p_filesz = p.p_filesz := by
  unfold shiftPhdrOffset
  split
  · rfl
  · split <;> rfl

lemma shiftPhdr_memsz (M hs : Nat) (h : Int) (p : Phdr) :
    (shiftPhdrOffset M hs h p).p_memsz = p.p_memsz := by
  unfold shiftPhdrOffset
  split
  · rfl
  · split <;> rfl

lemma shiftPhdr_gnustack (M hs : Nat) (h : Int) (p : Phdr)
    (hp : p.p_type = PT_GNU_STACK) : shiftPhdrOffset M hs h p = p := by
  unfold shiftPhdrOffset
  rw [if_pos hp]

/-- The wrapped shift moves a value whenever the delta is non-zero and
smaller than the modulus in absolute value. -/
lemma addOff_ne (M : Nat) (hM : 0 < M) (x : Nat) (_hx : x < M) (h : Int)
    (h0 : h ≠ 0) (hlt : -(M : Int) < h) (hgt : h < (M : Int)) :
    addOff M x h ≠ x := by
  unfold addOff
  intro hc
  have hMi : (0 : Int) < (M : Int) := by exact_mod_cast hM
  have hnn : (0 : Int) ≤ ((x : Int) + h) % (M : Int) := Int.emod_nonneg _ (by omega)
  have hcast : ((x : Int) + h) % (M : Int) = (x : Int) := by
    rw [← Int.toNat_of_nonneg hnn, hc]
  have hdiv := Int.emod_add_ediv ((x : Int) + h) (M : Int)
  rw [hcast] at hdiv
  have hhq : h = (M : Int) * (((x : Int) + h) / (M : Int)) := by omega
  rcases lt_trichotomy (((x : Int) + h) / (M : Int)) 0 with hq0 | hq0 | hq0
  · have hle : (M : Int) * (((x : Int) + h) / (M : Int)) ≤ (M : Int) * (-1) :=
      mul_le_mul_of_nonneg_left (by omega) (by omega)
    have hm1 : (M : Int) * (-1) = -(M : Int) := by ring
    omega
  · rw [hq0, mul_zero] at hhq
    exact h0 hhq
  · have hle : (M : Int) * 1 ≤ (M : Int) * (((x : Int) + h) / (M : Int)) :=
      mul_le_mul_of_nonneg_left (by omega) (by omega)
    have hm1 : (M : Int) * 1 = (M : Int) := by ring
    omega

/-- The finder's condition, as a proposition: `PT_LOAD` and the closed
interval `[p_offset, p_offset + p_filesz]` (sum in w-bit arithmetic)
containing the hole start. -/
lemma loadSegmentMatch_iff (M hs : Nat) (p : Phdr) :
    loadSegmentMatch M hs p = true ↔
      p.p_type = PT_LOAD ∧ p.p_offset ≤ hs ∧ hs ≤ (p.p_offset + p.p_filesz) % M := by
  simp [loadSegmentMatch, and_assoc]

/-- C3: after a size-changing resize, every section's `sh_addr` is unchanged
and its `sh_offset` is shifted by the hole size exactly when strictly past
the hole start; exactly the one `PT_LOAD` segment containing the hole has
its `p_filesz`/`p_memsz` changed, each by exactly the hole size, every other
segment's sizes are unchanged, and a `PT_GNU_STACK` header is never touched
at all. -/
theorem resize_frame (M : Nat) (hM : 0 < M) (σ : ElfState) (s v : Nat)
    (σ' : ElfState) (sec : Shdr)
    (hsec : σ.sections[s]? = some sec) (hv : sec.sh_size ≠ v) (hvM : v < M)
    (hszM : sec.sh_size < M)
    (hbp : ∀ p ∈ σ.phdrs, p.p_filesz < M ∧ p.p_memsz < M)
    (hres : ResizeSection M σ s v = some σ') :
    (∀ (i : Nat) (sh : Shdr), σ.sections[i]? = some sh →
      ∃ sh' : Shdr, σ'.sections[i]? = some sh' ∧
      sh'.sh_addr = sh.sh_addr ∧
      sh'.sh_offset = (if sh.sh_offset > sec.sh_offset then
        addOff M sh.sh_offset ((v : Int) - (sec.sh_size : Int)) else sh.sh_offset)) ∧
    (∃ (t : Nat) (p : Phdr), FindLoadSegmentForHole M sec.sh_offset σ.phdrs = some t ∧
      σ.phdrs[t]? = some p ∧ p.p_type = PT_LOAD ∧ p.p_offset ≤ sec.sh_offset ∧
      sec.sh_offset ≤ (p.p_offset + p.p_filesz) % M ∧
      (∃ p' : Phdr, σ'.phdrs[t]? = some p' ∧
        p'.p_filesz = addOff M p.p_filesz ((v : Int) - (sec.sh_size : Int)) ∧
        p'.p_memsz = addOff M p.p_memsz ((v : Int) - (sec.sh_size : Int)) ∧
        p'.p_filesz ≠ p.p_filesz ∧ p'.p_memsz ≠ p.p_memsz) ∧
      (∀ (i : Nat) (q : Phdr), i ≠ t → σ.phdrs[i]? = some q →
        ∃ q' : Phdr, σ'.phdrs[i]? = some q' ∧
        q'.p_filesz = q.p_filesz ∧ q'.p_memsz = q.p_memsz)) ∧
    (∀ (i : Nat) (q : Phdr), σ.phdrs[i]? = some q → q.p_type = PT_GNU_STACK →
      σ'.phdrs[i]? = some q) := by
  obtain ⟨h0, t, hfind, hσ'⟩ := resize_some_elim M σ s v σ' sec hsec hv hres
  have hne : ((v : Int) - (sec.sh_size : Int)) ≠ 0 := by
    intro hc
    apply hv
    omega
  have hlt : -(M : Int) < (v : Int) - (sec.sh_size : Int) := by omega
  have hgt : (v : Int) - (sec.sh_size : Int) < (M : Int) := by omega
  refine ⟨?_, ?_, ?_⟩
  · intro i sh hsh
    rw [hσ']
    dsimp only
    by_cases hi : i = s
    · refine ⟨shiftShdrOffset M sec.sh_offset ((v : Int) - (sec.sh_size : Int))
        (resizeShdrSize M ((v : Int) - (sec.sh_size : Int)) sh), ?_, ?_, ?_⟩
      · simp only [AdjustSectionHeadersForHole, List.getElem?_map, mapIdx_getElem?,
          if_pos hi, hsh, Option.map_some']
      · rw [shiftShdr_addr]
        rfl
      · rw [shiftShdr_offset]
        rfl
    · refine ⟨shiftShdrOffset M sec.sh_offset ((v : Int) - (sec.sh_size : Int)) sh,
        ?_, ?_, ?_⟩
      · simp only [AdjustSectionHeadersForHole, List.getElem?_map, mapIdx_getElem?,
          if_neg hi, hsh, Option.map_some']
      · rw [shiftShdr_addr]
      · rw [shiftShdr_offset]
  · obtain ⟨p, hp, hpm, hpfirst⟩ := findLoad_some M sec.sh_offset σ.phdrs t hfind
    obtain ⟨hpty, hple, hpsum⟩ := (loadSegmentMatch_iff M sec.sh_offset p).mp hpm
    refine ⟨t, p, hfind, hp, hpty, hple, hpsum, ?_, ?_⟩
    · refine ⟨shiftPhdrOffset M sec.sh_offset ((v : Int) - (sec.sh_size : Int))
        (growPhdr M ((v : Int) - (sec.sh_size : Int)) p), ?_, ?_, ?_, ?_, ?_⟩
      · rw [hσ']
        dsimp only
        simp only [AdjustProgramHeaderFields, List.getElem?_map, mapIdx_getElem?,
          if_pos rfl, hp, Option.map_some', eq_self_iff_true, if_true]
      · rw [shiftPhdr_filesz]
        rfl
      · rw [shiftPhdr_memsz]
        rfl
      · rw [shiftPhdr_filesz]
        show addOff M p.p_filesz _ ≠ p.p_filesz
        exact addOff_ne M hM p.p_filesz (hbp p (by
          obtain ⟨hlt', hget⟩ := List.getElem?_eq_some.mp hp
          exact hget ▸ List.getElem_mem hlt')).1 _ hne hlt hgt
      · rw [shiftPhdr_memsz]
        show addOff M p.p_memsz _ ≠ p.p_memsz
        exact addOff_ne M hM p.p_memsz (hbp p (by
          obtain ⟨hlt', hget⟩ := List.getElem?_eq_some.mp hp
          exact hget ▸ List.getElem_mem hlt')).2 _ hne hlt hgt
    · intro i q hi hq
      refine ⟨shiftPhdrOffset M sec.sh_offset ((v : Int) - (sec.sh_size : Int)) q,
        ?_, ?_, ?_⟩
      · rw [hσ']
        dsimp only
        simp only [AdjustProgramHeaderFields, List.getElem?_map, mapIdx_getElem?,
          if_neg hi, hq, Option.map_some']
      · rw [shiftPhdr_filesz]
      · rw [shiftPhdr_memsz]
  · intro i q hq hqty
    have hit : i ≠ t := by
      intro hc
      obtain ⟨p, hp, hpm, _⟩ := findLoad_some M sec.sh_offset σ.phdrs t hfind
      obtain ⟨hpty, _, _⟩ := (loadSegmentMatch_iff M sec.sh_offset p).mp hpm
      rw [hc, hp] at hq
      rw [← Option.some.inj hq] at hqty
      rw [hpty] at hqty
      exact absurd hqty (by decide)
    rw [hσ']
    dsimp only
    simp only [AdjustProgramHeaderFields, List.getElem?_map, mapIdx_getElem?,
      if_neg hit, hq, Option.map_some']
    rw [shiftPhdr_gnustack M sec.sh_offset _ q hqty]

/-- When no `PT_LOAD` segment's (closed) range contains the hole start, a
size-changing resize is fatal. -/
lemma resize_none_of_no_load (M : Nat) (σ : ElfState) (s v : Nat) (sec : Shdr)
    (hsec : σ.sections[s]? = some sec) (hv : sec.sh_size ≠ v)
    (h0 : sec.sh_size ≠ 0)
    (hnone : FindLoadSegmentForHole M sec.sh_offset σ.phdrs = none) :
    ResizeSection M σ s v = none := by
  unfold ResizeSection
  rw [hsec]
  dsimp only
  rw [if_neg hv, if_neg h0]
  unfold RewriteProgramHeadersForHole
  rw [hnone]

/-- C4 (amended): the engine selects the first `PT_LOAD` segment whose
*closed* file range `[p_offset, p_offset + p_filesz]` contains `hole_start`
(the sum computed in w-bit arithmetic; a hole start lying exactly at
`p_offset + p_filesz` is *inside* the range), grows exactly that segment's
`p_filesz` and `p_memsz` by `hole_size`, and a size-changing resize
terminates fatally when no `PT_LOAD` segment's closed range contains
`hole_start`. -/
theorem load_segment_selection (M : Nat) (σ : ElfState) (s v : Nat)
    (sec : Shdr) (hsec : σ.sections[s]? = some sec) (hv : sec.sh_size ≠ v)
    (h0 : sec.sh_size ≠ 0) :
    (∀ t : Nat, FindLoadSegmentForHole M sec.sh_offset σ.phdrs = some t →
      ∃ p : Phdr, σ.phdrs[t]? = some p ∧ p.p_type = PT_LOAD ∧
        p.p_offset ≤ sec.sh_offset ∧
        sec.sh_offset ≤ (p.p_offset + p.p_filesz) % M ∧
        (∀ (j : Nat) (q : Phdr), j < t → σ.phdrs[j]? = some q →
          ¬ (q.p_type = PT_LOAD ∧ q.p_offset ≤ sec.sh_offset ∧
            sec.sh_offset ≤ (q.p_offset + q.p_filesz) % M)) ∧
        ∀ σ' : ElfState, ResizeSection M σ s v = some σ' →
          ∃ p' : Phdr, σ'.phdrs[t]? = some p' ∧
            p'.p_filesz = addOff M p.p_filesz ((v : Int) - (sec.sh_size : Int)) ∧
            p'.p_memsz = addOff M p.p_memsz ((v : Int) - (sec.sh_size : Int))) ∧
    ((∀ p ∈ σ.phdrs, ¬ (p.p_type = PT_LOAD ∧ p.p_offset ≤ sec.sh_offset ∧
        sec.sh_offset ≤ (p.p_offset + p.p_filesz) % M)) →
      ResizeSection M σ s v = none) := by
  constructor
  · intro t ht
    obtain ⟨p, hp, hpm, hpfirst⟩ := findLoad_some M sec.sh_offset σ.phdrs t ht
    obtain ⟨hpty, hple, hpsum⟩ := (loadSegmentMatch_iff M sec.sh_offset p).mp hpm
    refine ⟨p, hp, hpty, hple, hpsum, ?_, ?_⟩
    · intro j q hj hq hcontra
      have hfalse := hpfirst j q hj hq
      rw [(loadSegmentMatch_iff M sec.sh_offset q).mpr hcontra] at hfalse
      exact absurd hfalse (by decide)
    · intro σ' hres
      obtain ⟨h0', t', hfind', hσ'⟩ := resize_some_elim M σ s v σ' sec hsec hv hres
      have htt : t' = t := by
        rw [ht] at hfind'
        exact (Option.some.inj hfind').symm
      rw [htt] at hσ'
      refine ⟨shiftPhdrOffset M sec.sh_offset ((v : Int) - (sec.sh_size : Int))
        (growPhdr M ((v : Int) - (sec.sh_size : Int)) p), ?_, ?_, ?_⟩
      · rw [hσ']
        dsimp only
        simp only [AdjustProgramHeaderFields, List.getElem?_map, mapIdx_getElem?,
          if_pos rfl, hp, Option.map_some', eq_self_iff_true, if_true]
      · rw [shiftPhdr_filesz]
        rfl
      · rw [shiftPhdr_memsz]
        rfl
  · intro hall
    apply resize_none_of_no_load M σ s v sec hsec hv h0
    apply findLoad_none
    intro p hp
    rw [Bool.eq_false_iff]
    intro hc
    exact hall p hp ((loadSegmentMatch_iff M sec.sh_offset p).mp hc)

/-- C4, counterexample to the claim as stated: with a single `PT_LOAD`
segment of file range `[0, 0 + 10)` (half-open) and `hole_start = 10` —
exactly the segment's end offset — no segment's *half-open* range contains
the hole start, so the claim predicts a fatal error; but the code's finder
(which uses `>= hole_start`, a closed interval) selects the segment. -/
theorem load_segment_halfopen_cex :
    (∀ p ∈ [(⟨PT_LOAD, 0, 0, 10, 10⟩ : Phdr)],
      ¬ (p.p_offset ≤ 10 ∧ 10 < p.p_offset + p.p_filesz)) ∧
    FindLoadSegmentForHole 1000 10 [(⟨PT_LOAD, 0, 0, 10, 10⟩ : Phdr)] = some 0 := by
  decide

/-! ## Concrete states for the witnesses -/

/-- A small well-formed image: section 0 is the resized section (offset 100,
size 10), section 1 the dynamic table (offset 200); one covering `PT_LOAD`
segment, the `PT_DYNAMIC` segment, and a `PT_GNU_STACK` entry. -/
def exState : ElfState :=
  { e_phoff := 50, e_shoff := 300,
    sections := [⟨0, 100, 10⟩, ⟨200, 200, 16⟩],
    phdrs := [⟨PT_LOAD, 0, 0, 150, 150⟩, ⟨PT_DYNAMIC, 200, 200, 16, 16⟩,
      ⟨PT_GNU_STACK, 0, 0, 0, 0⟩],
    dynamics := [⟨DT_RELSZ, 40⟩, ⟨0, 0⟩] }

/-- `exState` after `ResizeSection(section 0, 14)` — a four-byte hole at
offset 100. -/
def exMid : ElfState :=
  { e_phoff := 50, e_shoff := 304,
    sections := [⟨0, 100, 14⟩, ⟨200, 204, 16⟩],
    phdrs := [⟨PT_LOAD, 0, 0, 154, 154⟩, ⟨PT_DYNAMIC, 204, 200, 16, 16⟩,
      ⟨PT_GNU_STACK, 0, 0, 0, 0⟩],
    dynamics := [⟨DT_RELSZ, 44⟩, ⟨0, 0⟩] }

theorem hole_idempotence_witness :
    ResizeSection 1000 exState 0 14 = some exMid ∧ exState = exState :=
  ⟨by decide, hole_idempotence 1000 (by decide) exState 0 14 ⟨0, 100, 10⟩
    (by decide) (by decide) (by decide) (by decide) (by decide) (by decide)
    (by decide) (by decide) (by decide) (by decide) (by decide) (by decide)
    exMid exState (by decide) (by decide)⟩

theorem resize_frame_witness :
    ∃ sh' : Shdr, exMid.sections[1]? = some sh' ∧ sh'.sh_addr = 200 ∧
      sh'.sh_offset = (if (200 : Nat) > 100 then
        addOff 1000 200 ((14 : Int) - (10 : Int)) else 200) := by
  have h := resize_frame 1000 (by decide) exState 0 14 exMid ⟨0, 100, 10⟩
    (by decide) (by decide) (by decide) (by decide) (by decide) (by decide)
  exact h.1 1 ⟨200, 200, 16⟩ (by decide)

theorem load_segment_selection_witness :
    ∃ p : Phdr, exState.phdrs[0]? = some p ∧ p.p_type = PT_LOAD ∧
      p.p_offset ≤ 100 ∧ 100 ≤ (p.p_offset + p.p_filesz) % 1000 := by
  have h := load_segment_selection 1000 exState 0 14 ⟨0, 100, 10⟩
    (by decide) (by decide) (by decide)
  obtain ⟨p, hp, hty, hle, hsum, _, _⟩ := h.1 0 (by decide)
  exact ⟨p, hp, hty, hle, hsum⟩

/-! ## Dynamic-table lemmas -/

lemma adjust_tag (M : Nat) (h : Int) (d : Dyn) :
    (adjustDynamicEntry M h d).d_tag = d.d_tag := by
  obtain ⟨tag, v⟩ := d
  unfold adjustDynamicEntry
  by_cases hR : tag = DT_RELSZ ∨ tag = DT_RELASZ
  · rw [if_pos hR]
    by_cases hMp : tag = DT_MIPS_RLD_MAP_REL
    · rw [if_pos hMp]
    · rw [if_neg hMp]
  · rw [if_neg hR]
    by_cases hMp : tag = DT_MIPS_RLD_MAP_REL
    · rw [if_pos hMp]
    · rw [if_neg hMp]

lemma adjust_zero (M : Nat) (d : Dyn) (hd : d.d_val < M) :
    adjustDynamicEntry M 0 d = d := by
  obtain ⟨tag, v⟩ := d
  unfold adjustDynamicEntry
  by_cases hR : tag = DT_RELSZ ∨ tag = DT_RELASZ
  · rw [if_pos hR]
    by_cases hMp : tag = DT_MIPS_RLD_MAP_REL
    · rw [if_pos hMp, addOff_zero M v hd, addOff_zero M v hd]
    · rw [if_neg hMp, addOff_zero M v hd]
  · rw [if_neg hR]
    by_cases hMp : tag = DT_MIPS_RLD_MAP_REL
    · rw [if_pos hMp, addOff_zero M v hd]
    · rw [if_neg hMp]

/-- The value rewriting of a `DT_RELSZ`/`DT_RELASZ` entry. -/
lemma adjust_relsz (M : Nat) (h : Int) (d : Dyn)
    (hd : d.d_tag = DT_RELSZ ∨ d.d_tag = DT_RELASZ) :
    adjustDynamicEntry M h d = ⟨d.d_tag, addOff M d.d_val h⟩ := by
  obtain ⟨tag, v⟩ := d
  unfold adjustDynamicEntry
  rw [if_pos hd]
  rw [if_neg (by
    show ¬ tag = DT_MIPS_RLD_MAP_REL
    rcases hd with hd | hd
    · have h18 : tag = DT_RELSZ := hd
      rw [h18]
      decide
    · have h8 : tag = DT_RELASZ := hd
      rw [h8]
      decide)]

/-- Any successful resize leaves the dynamic entries' tags (and count)
unchanged: entries are only value-adjusted, never added or removed. -/
lemma resize_dyn_tags (M : Nat) (σ : ElfState) (s v : Nat) (σ' : ElfState)
    (hres : ResizeSection M σ s v = some σ') :
    σ'.dynamics.length = σ.dynamics.length ∧
    ∀ i : Nat, (σ'.dynamics[i]?).map Dyn.d_tag = (σ.dynamics[i]?).map Dyn.d_tag := by
  cases hsec : σ.sections[s]? with
  | none =>
    unfold ResizeSection at hres
    rw [hsec] at hres
    exact absurd hres (by simp)
  | some sec =>
    by_cases hveq : sec.sh_size = v
    · have := resize_noop M σ s v sec hsec hveq
      rw [this] at hres
      rw [← Option.some.inj hres]
      exact ⟨rfl, fun i => rfl⟩
    · obtain ⟨h0, t, hfind, hσ'⟩ := resize_some_elim M σ s v σ' sec hsec hveq hres
      rw [hσ']
      dsimp only
      constructor
      · unfold AdjustDynamicSectionForHole
        exact List.length_map _ _
      · intro i
        unfold AdjustDynamicSectionForHole
        rw [List.getElem?_map]
        cases hDi : σ.dynamics[i]? with
        | none => rfl
        | some d =>
          simp only [Option.map_some']
          rw [adjust_tag]

/-- The dynamic entries of a successful resize are exactly the adjusted
originals (also when the resize is a no-op, where the delta is zero). -/
lemma resize_dynamics (M : Nat) (_hM : 0 < M) (σ : ElfState) (s v : Nat)
    (σ' : ElfState) (sec : Shdr) (hsec : σ.sections[s]? = some sec)
    (hbd : ∀ d ∈ σ.dynamics, d.d_val < M)
    (hres : ResizeSection M σ s v = some σ') :
    σ'.dynamics = AdjustDynamicSectionForHole M σ.dynamics
      ((v : Int) - (sec.sh_size : Int)) := by
  by_cases hveq : sec.sh_size = v
  · have hnoop := resize_noop M σ s v sec hsec hveq
    rw [hnoop] at hres
    rw [← Option.some.inj hres]
    have hzero : (v : Int) - (sec.sh_size : Int) = 0 := by omega
    rw [hzero]
    unfold AdjustDynamicSectionForHole
    have hmapid : ∀ L : List Dyn, (∀ d ∈ L, d.d_val < M) →
        List.map (adjustDynamicEntry M 0) L = L := by
      intro L
      induction L with
      | nil => intro _; rfl
      | cons d tail ih =>
        intro hb
        rw [List.map_cons, adjust_zero M d (hb d (by simp)),
          ih fun q hq => hb q (by simp [hq])]
    exact (hmapid σ.dynamics hbd).symm
  · obtain ⟨h0, t, hfind, hσ'⟩ := resize_some_elim M σ s v σ' sec hsec hveq hres
    rw [hσ']

/-! ## Live-region search and removal lemmas -/

/-- An element of the live region (all entries but the terminating sentinel)
indexed below `length - 1`. -/
lemma mem_dropLast_of_getElem? {α : Type} (l : List α) (j : Nat) (a : α)
    (hj : j < l.length - 1) (ha : l[j]? = some a) : a ∈ l.dropLast := by
  rw [List.dropLast_eq_take]
  rw [List.mem_iff_getElem?]
  refine ⟨j, ?_⟩
  rw [List.getElem?_take, if_pos hj]
  exact ha

lemma findDynLive_eq_none (tag : Int) :
    ∀ L : List Dyn, (∀ q ∈ L.dropLast, q.d_tag ≠ tag) →
      findDynLive tag L = none := by
  intro L
  induction L with
  | nil => intro _; rfl
  | cons d tail ih =>
    intro habs
    cases tail with
    | nil => rfl
    | cons d2 rest =>
      rw [findDynLive]
      rw [if_neg (habs d (by simp [List.dropLast]))]
      rw [ih (fun q hq => habs q (by simp [List.dropLast, hq]))]
      rfl

lemma findDynLive_some (tag : Int) :
    ∀ (L : List Dyn) (j : Nat), findDynLive tag L = some j →
      j < L.length - 1 ∧ ∃ q, L[j]? = some q ∧ q.d_tag = tag := by
  intro L
  induction L with
  | nil =>
    intro j hj
    exact absurd hj (by simp [findDynLive])
  | cons d tail ih =>
    intro j hj
    cases tail with
    | nil => exact absurd hj (by simp [findDynLive])
    | cons d2 rest =>
      rw [findDynLive] at hj
      by_cases hd : d.d_tag = tag
      · rw [if_pos hd] at hj
        have hj0 : j = 0 := (Option.some.inj hj).symm
        subst hj0
        exact ⟨by simp, d, by simp, hd⟩
      · rw [if_neg hd] at hj
        obtain ⟨j', hj', rfl⟩ := Option.map_eq_some'.mp hj
        obtain ⟨hlt, q, hq, hqt⟩ := ih j' hj'
        refine ⟨by simp at hlt ⊢; omega, q, by simpa using hq, hqt⟩

/-- Fatal lookup: a tag absent from the live entries makes
`removeDynamicEntry` fail. -/
lemma removeDynamicEntry_none (tag : Int) (L : List Dyn)
    (habs : ∀ q ∈ L.dropLast, q.d_tag ≠ tag) :
    removeDynamicEntry tag L = none := by
  unfold removeDynamicEntry FindDynamicEntry
  rw [findDynLive_eq_none tag L habs]
  simp

/-- Successful removal erases a live slot and preserves live absence of any
other tag. -/
lemma removeDynamicEntry_some_absent (tag T : Int) (L L₁ : List Dyn)
    (hrm : removeDynamicEntry tag L = some L₁)
    (habs : ∀ q ∈ L.dropLast, q.d_tag ≠ T) :
    ∀ q ∈ L₁.dropLast, q.d_tag ≠ T := by
  unfold removeDynamicEntry FindDynamicEntry at hrm
  cases hfind : findDynLive tag L with
  | none =>
    rw [hfind] at hrm
    simp at hrm
  | some slot =>
    rw [hfind] at hrm
    simp only [Option.getD_some] at hrm
    obtain ⟨hslot, _⟩ := findDynLive_some tag L slot hfind
    rw [if_neg (by omega)] at hrm
    rw [← Option.some.inj hrm]
    intro q hq
    rw [List.dropLast_eq_take, List.mem_iff_getElem?] at hq
    obtain ⟨j, hj⟩ := hq
    rw [List.getElem?_take] at hj
    by_cases hjlt : j < (L.eraseIdx slot).length - 1
    · rw [if_pos hjlt] at hj
      rw [List.getElem?_eraseIdx] at hj
      have hlen : (L.eraseIdx slot).length = L.length - 1 := by
        apply List.length_eraseIdx_of_lt
        omega
      by_cases hjs : j < slot
      · rw [if_pos hjs] at hj
        exact habs q (mem_dropLast_of_getElem? L j q (by omega) hj)
      · rw [if_neg hjs] at hj
        exact habs q (mem_dropLast_of_getElem? L (j + 1) q (by omega) hj)
    · rw [if_neg hjlt] at hj
      exact absurd hj (by simp)

/-- Removing a tag that occurs exactly once, and not in the sentinel slot,
erases exactly its occurrence: the result is the list filtered of that tag. -/
lemma removeDynamicEntry_unique (tag : Int) :
    ∀ L : List Dyn,
      List.countP (fun d => d.d_tag == tag) L = 1 →
      (∀ z, L.getLast? = some z → z.d_tag ≠ tag) →
      removeDynamicEntry tag L = some (L.filter fun d => !(d.d_tag == tag)) := by
  intro L
  induction L with
  | nil =>
    intro hc _
    simp at hc
  | cons d tail ih =>
    intro hc hlast
    cases tail with
    | nil =>
      exfalso
      have hd : d.d_tag ≠ tag := hlast d (by simp)
      rw [List.countP_cons] at hc
      simp [hd] at hc
    | cons d2 rest =>
      by_cases hd : d.d_tag = tag
      · have hzero : ∀ a ∈ (d2 :: rest), ¬ a.d_tag = tag := by
          rw [List.countP_cons] at hc
          simp [hd] at hc
          intro a ha
          rcases List.mem_cons.mp ha with h | h
          · rw [h]
            exact hc.1
          · exact hc.2 a h
        have hslot : removeDynamicEntry tag (d :: d2 :: rest) = some (d2 :: rest) := by
          unfold removeDynamicEntry FindDynamicEntry
          rw [findDynLive, if_pos hd]
          simp
        rw [hslot]
        congr 1
        rw [List.filter_cons, if_neg (by simp [hd])]
        symm
        rw [List.filter_eq_self]
        intro a ha
        simp [hzero a ha]
      · have hc' : List.countP (fun x => x.d_tag == tag) (d2 :: rest) = 1 := by
          rw [List.countP_cons] at hc
          simp [hd] at hc
          exact hc
        have hlast' : ∀ z, (d2 :: rest).getLast? = some z → z.d_tag ≠ tag := by
          intro z hz
          exact hlast z (by rw [List.getLast?_cons_cons]; exact hz)
        have ihr := ih hc' hlast'
        unfold removeDynamicEntry FindDynamicEntry at ihr ⊢
        cases hf : findDynLive tag (d2 :: rest) with
        | none =>
          rw [hf] at ihr
          simp at ihr
        | some j =>
          rw [hf] at ihr
          simp only [Option.getD_some] at ihr
          obtain ⟨hjlt, _⟩ := findDynLive_some tag (d2 :: rest) j hf
          have hjlt' : j < rest.length := by simpa using hjlt
          rw [if_neg (by simp only [List.length_cons]; omega)] at ihr
          have herase := Option.some.inj ihr
          rw [findDynLive, if_neg hd, hf]
          simp only [Option.map_some', Option.getD_some]
          rw [if_neg (by simp only [List.length_cons]; omega)]
          rw [List.eraseIdx_cons_succ, herase]
          congr 1
          conv_rhs => rw [List.filter_cons]
          rw [if_pos (by simp [hd])]

/-- The filter keeps the final sentinel, so the last entry survives. -/
lemma getLast_filter_keep (p : Dyn → Bool) :
    ∀ (L : List Dyn) (z : Dyn), L.getLast? = some z → p z = true →
      (L.filter p).getLast? = some z := by
  intro L
  induction L with
  | nil =>
    intro z hz _
    exact absurd hz (by simp)
  | cons a tail ih =>
    intro z hz hp
    cases tail with
    | nil =>
      have haz : a = z := by simpa using hz
      subst haz
      rw [List.filter_cons, if_pos hp]
      simp
    | cons b rest =>
      rw [List.getLast?_cons_cons] at hz
      have ihz := ih z hz hp
      rw [List.filter_cons]
      by_cases hpa : p a = true
      · rw [if_pos hpa]
        cases hl : (b :: rest).filter p with
        | nil =>
          rw [hl] at ihz
          exact absurd ihz (by simp)
        | cons w ws =>
          rw [hl] at ihz
          rw [List.getLast?_cons_cons]
          exact ihz
      · rw [if_neg hpa]
        exact ihz

lemma getElem?_of_mem_dropLast {α : Type} (l : List α) (a : α)
    (ha : a ∈ l.dropLast) : ∃ j, j < l.length - 1 ∧ l[j]? = some a := by
  rw [List.dropLast_eq_take, List.mem_iff_getElem?] at ha
  obtain ⟨j, hj⟩ := ha
  rw [List.getElem?_take] at hj
  by_cases hjl : j < l.length - 1
  · rw [if_pos hjl] at hj
    exact ⟨j, hjl, hj⟩
  · rw [if_neg hjl] at hj
    exact absurd hj (by simp)

/-- Live absence of a tag carries from the pre-resize to the post-resize
dynamic table (resizing only rewrites values, never tags). -/
lemma absent_transport (σ σ1 : ElfState)
    (hlen : σ1.dynamics.length = σ.dynamics.length)
    (htags : ∀ i : Nat,
      (σ1.dynamics[i]?).map Dyn.d_tag = (σ.dynamics[i]?).map Dyn.d_tag)
    (T : Int) (habs : ∀ q ∈ σ.dynamics.dropLast, q.d_tag ≠ T) :
    ∀ q ∈ σ1.dynamics.dropLast, q.d_tag ≠ T := by
  intro q hq
  obtain ⟨j, hjlt, hj⟩ := getElem?_of_mem_dropLast σ1.dynamics q hq
  have htag := htags j
  rw [hj] at htag
  cases hj0 : σ.dynamics[j]? with
  | none =>
    rw [hj0] at htag
    exact absurd htag (by simp)
  | some q0 =>
    rw [hj0] at htag
    simp only [Option.map_some'] at htag
    have hq0mem : q0 ∈ σ.dynamics.dropLast :=
      mem_dropLast_of_getElem? σ.dynamics j q0 (by omega) hj0
    rw [Option.some.inj htag]
    exact habs q0 hq0mem

/-- Eliminating the three packed-relocation tags when each occurs exactly
once among the live entries: the result is the filtered table. -/
lemma removePackedDynamics_eq_filter (L : List Dyn)
    (hc35 : List.countP (fun d => d.d_tag == DT_RELRSZ) L = 1)
    (hc36 : List.countP (fun d => d.d_tag == DT_RELR) L = 1)
    (hc37 : List.countP (fun d => d.d_tag == DT_RELRENT) L = 1)
    (hlast : ∀ z, L.getLast? = some z →
      z.d_tag ≠ DT_RELRSZ ∧ z.d_tag ≠ DT_RELR ∧ z.d_tag ≠ DT_RELRENT) :
    removePackedDynamics L = some (L.filter fun d =>
      !(d.d_tag == DT_RELRSZ) && !(d.d_tag == DT_RELR) &&
        !(d.d_tag == DT_RELRENT)) := by
  have hne : L ≠ [] := by
    intro hnil
    rw [hnil] at hc35
    simp at hc35
  cases hz : L.getLast? with
  | none =>
    exact absurd (List.getLast?_eq_none_iff.mp hz) hne
  | some z0 =>
    obtain ⟨hz35, hz36, hz37⟩ := hlast z0 hz
    have h1 := removeDynamicEntry_unique DT_RELRSZ L hc35
      (fun z hzz => (hlast z hzz).1)
    have hl1 : (L.filter fun d => !(d.d_tag == DT_RELRSZ)).getLast? = some z0 :=
      getLast_filter_keep _ L z0 hz (by simp [hz35])
    have hc36' : List.countP (fun d => d.d_tag == DT_RELR)
        (L.filter fun d => !(d.d_tag == DT_RELRSZ)) = 1 := by
      rw [List.countP_filter]
      rw [List.countP_congr ?pw]
      · exact hc36
      case pw =>
        intro a _
        constructor
        · intro hx
          simp only [Bool.and_eq_true] at hx
          exact hx.1
        · intro hx
          simp only [Bool.and_eq_true]
          refine ⟨hx, ?_⟩
          simp only [beq_iff_eq] at hx
          rw [hx]
          decide
    have h2 := removeDynamicEntry_unique DT_RELR _ hc36'
      (fun z hzz => by
        rw [hl1] at hzz
        rw [← Option.some.inj hzz]
        exact hz36)
    have hl2 : ((L.filter fun d => !(d.d_tag == DT_RELRSZ)).filter
        fun d => !(d.d_tag == DT_RELR)).getLast? = some z0 :=
      getLast_filter_keep _ _ z0 hl1 (by simp [hz36])
    have hc37' : List.countP (fun d => d.d_tag == DT_RELRENT)
        ((L.filter fun d => !(d.d_tag == DT_RELRSZ)).filter
          fun d => !(d.d_tag == DT_RELR)) = 1 := by
      rw [List.filter_filter, List.countP_filter]
      rw [List.countP_congr ?pw2]
      · exact hc37
      case pw2 =>
        intro a _
        constructor
        · intro hx
          simp only [Bool.and_eq_true] at hx
          exact hx.1
        · intro hx
          simp only [Bool.and_eq_true]
          refine ⟨hx, ?_⟩
          simp only [beq_iff_eq] at hx
          refine ⟨?_, ?_⟩ <;> rw [hx] <;> decide
    have h3 := removeDynamicEntry_unique DT_RELRENT _ hc37'
      (fun z hzz => by
        rw [hl2] at hzz
        rw [← Option.some.inj hzz]
        exact hz37)
    unfold removePackedDynamics
    rw [h1]
    dsimp only
    rw [h2]
    dsimp only
    rw [h3]
    congr 1
    rw [List.filter_filter, List.filter_filter]
    apply List.filter_congr
    intro a _
    cases (a.d_tag == DT_RELRSZ) <;> cases (a.d_tag == DT_RELR) <;>
      cases (a.d_tag == DT_RELRENT) <;> rfl

/-- Any of the three packed-relocation tags missing from the live entries
makes the erase sequence fatal. -/
lemma removePackedDynamics_none (L : List Dyn) (T : Int)
    (hT : T = DT_RELRSZ ∨ T = DT_RELR ∨ T = DT_RELRENT)
    (habs : ∀ q ∈ L.dropLast, q.d_tag ≠ T) :
    removePackedDynamics L = none := by
  unfold removePackedDynamics
  rcases hT with h | h | h <;> subst h
  · rw [removeDynamicEntry_none DT_RELRSZ L habs]
  · cases h1 : removeDynamicEntry DT_RELRSZ L with
    | none => rfl
    | some L1 =>
      dsimp only
      rw [removeDynamicEntry_none DT_RELR L1
        (removeDynamicEntry_some_absent DT_RELRSZ DT_RELR L L1 h1 habs)]
  · cases h1 : removeDynamicEntry DT_RELRSZ L with
    | none => rfl
    | some L1 =>
      dsimp only
      cases h2 : removeDynamicEntry DT_RELR L1 with
      | none => rfl
      | some L2 =>
        dsimp only
        exact removeDynamicEntry_none DT_RELRENT L2
          (removeDynamicEntry_some_absent DT_RELR DT_RELRENT L1 L2 h2
            (removeDynamicEntry_some_absent DT_RELRSZ DT_RELRENT L L1 h1 habs))

lemma countP_tag_adjust (M : Nat) (h : Int) (tag : Int) (L : List Dyn) :
    List.countP (fun d => d.d_tag == tag) (AdjustDynamicSectionForHole M L h)
      = List.countP (fun d => d.d_tag == tag) L := by
  unfold AdjustDynamicSectionForHole
  rw [List.countP_map]
  apply List.countP_congr
  intro a _
  simp only [Function.comp_apply]
  rw [adjust_tag]

lemma getLast_adjust (M : Nat) (h : Int) (L : List Dyn) (z : Dyn)
    (hz : L.getLast? = some z) :
    (AdjustDynamicSectionForHole M L h).getLast? = some (adjustDynamicEntry M h z) := by
  unfold AdjustDynamicSectionForHole
  rw [List.getLast?_map, hz]
  rfl

lemma getLast_adjust_none (M : Nat) (h : Int) (L : List Dyn)
    (hz : L.getLast? = none) :
    (AdjustDynamicSectionForHole M L h).getLast? = none := by
  unfold AdjustDynamicSectionForHole
  rw [List.getLast?_map, hz]
  rfl


/-- Core of the dynamic-table rewrite: given the relocation-section resize
and the successful erasure of the three tags, the written table is the
value-adjusted original filtered of the three tags, and every
`DT_RELSZ`/`DT_RELASZ` entry survives with its value moved by the delta. -/
lemma unpack_dyn_core (ws : Nat) (σ σ1 : ElfState) (rsec : Nat) (ub : Nat)
    (sec : Shdr) (dyn2 : List Dyn)
    (hsec : σ.sections[rsec]? = some sec)
    (hbd : ∀ d ∈ σ.dynamics, d.d_val < 2 ^ (8 * ws))
    (heq1 : ResizeSection (2 ^ (8 * ws)) σ rsec ub = some σ1)
    (heq2 : removePackedDynamics σ1.dynamics = some dyn2)
    (hc35 : List.countP (fun d => d.d_tag == DT_RELRSZ) σ.dynamics = 1)
    (hc36 : List.countP (fun d => d.d_tag == DT_RELR) σ.dynamics = 1)
    (hc37 : List.countP (fun d => d.d_tag == DT_RELRENT) σ.dynamics = 1)
    (hlast : ∀ z, σ.dynamics.getLast? = some z →
      z.d_tag ≠ DT_RELRSZ ∧ z.d_tag ≠ DT_RELR ∧ z.d_tag ≠ DT_RELRENT) :
    dyn2 = (AdjustDynamicSectionForHole (2 ^ (8 * ws)) σ.dynamics
        ((ub : Int) - (sec.sh_size : Int))).filter
      (fun d => !(d.d_tag == DT_RELRSZ) && !(d.d_tag == DT_RELR) &&
        !(d.d_tag == DT_RELRENT)) ∧
    (∀ d ∈ σ.dynamics, (d.d_tag = DT_RELSZ ∨ d.d_tag = DT_RELASZ) →
      (⟨d.d_tag, addOff (2 ^ (8 * ws)) d.d_val
        ((ub : Int) - (sec.sh_size : Int))⟩ : Dyn) ∈ dyn2) := by
  have hMpos : 0 < 2 ^ (8 * ws) := Nat.pos_pow_of_pos _ (by norm_num)
  have hσ1dyn := resize_dynamics (2 ^ (8 * ws)) hMpos σ rsec ub σ1 sec hsec hbd heq1
  rw [hσ1dyn] at heq2
  have hc35' := (countP_tag_adjust (2 ^ (8 * ws))
    ((ub : Int) - (sec.sh_size : Int)) DT_RELRSZ σ.dynamics).trans hc35
  have hc36' := (countP_tag_adjust (2 ^ (8 * ws))
    ((ub : Int) - (sec.sh_size : Int)) DT_RELR σ.dynamics).trans hc36
  have hc37' := (countP_tag_adjust (2 ^ (8 * ws))
    ((ub : Int) - (sec.sh_size : Int)) DT_RELRENT σ.dynamics).trans hc37
  have hlast' : ∀ z, (AdjustDynamicSectionForHole (2 ^ (8 * ws)) σ.dynamics
      ((ub : Int) - (sec.sh_size : Int))).getLast? = some z →
      z.d_tag ≠ DT_RELRSZ ∧ z.d_tag ≠ DT_RELR ∧ z.d_tag ≠ DT_RELRENT := by
    intro z hz
    cases hz0 : σ.dynamics.getLast? with
    | none =>
      rw [getLast_adjust_none _ _ _ hz0] at hz
      exact absurd hz (by simp)
    | some z0 =>
      rw [getLast_adjust _ _ _ z0 hz0] at hz
      have hzz := Option.some.inj hz
      obtain ⟨h35, h36, h37⟩ := hlast z0 hz0
      rw [← hzz, adjust_tag]
      exact ⟨h35, h36, h37⟩
  have hfilter := removePackedDynamics_eq_filter _ hc35' hc36' hc37' hlast'
  rw [hfilter] at heq2
  have hdyn2 := (Option.some.inj heq2).symm
  refine ⟨hdyn2, ?_⟩
  intro d hd hdtag
  rw [hdyn2, List.mem_filter]
  constructor
  · unfold AdjustDynamicSectionForHole
    apply List.mem_map.mpr
    refine ⟨d, hd, ?_⟩
    rw [adjust_relsz _ _ d hdtag]
  · rcases hdtag with h | h
    · show (!(d.d_tag == DT_RELRSZ) && !(d.d_tag == DT_RELR) &&
        !(d.d_tag == DT_RELRENT)) = true
      rw [h]
      decide
    · show (!(d.d_tag == DT_RELRSZ) && !(d.d_tag == DT_RELR) &&
        !(d.d_tag == DT_RELRENT)) = true
      rw [h]
      decide

/-- C6: after a successful unpack run the written dynamic table is exactly
the original entries — with `DT_RELSZ`/`DT_RELASZ` (and
`DT_MIPS_RLD_MAP_REL`) values adjusted by the signed byte delta of the
relocation-section resize — and with the three packed-relocation entries
`DT_RELRSZ`, `DT_RELR`, `DT_RELRENT` removed; the run is fatal when any of
the three is absent from the live (non-sentinel) entries.  The
dynamic-section resize does adjust the stored table a second time, but that
second adjustment is discarded when `SetSectionData` finally overwrites the
section with the erased vector, so only the relocation-section delta
remains. -/
theorem unpack_dynamic_rewrite (ws : Nat) (σ : ElfState) (rsec dsec : Nat)
    (rtype : RelocType) (origRel : List Rel) (origRela : List Rela)
    (packed : List Nat) (sec : Shdr) (hsec : σ.sections[rsec]? = some sec) :
    (∀ (σf : ElfState) (relf : List Rela),
      UnpackTypedRelocations ws σ rsec dsec rtype origRel origRela packed
        = some (σf, relf) →
      (∀ d ∈ σ.dynamics, d.d_val < 2 ^ (8 * ws)) →
      List.countP (fun d => d.d_tag == DT_RELRSZ) σ.dynamics = 1 →
      List.countP (fun d => d.d_tag == DT_RELR) σ.dynamics = 1 →
      List.countP (fun d => d.d_tag == DT_RELRENT) σ.dynamics = 1 →
      (∀ z, σ.dynamics.getLast? = some z →
        z.d_tag ≠ DT_RELRSZ ∧ z.d_tag ≠ DT_RELR ∧ z.d_tag ≠ DT_RELRENT) →
      σf.dynamics =
        (AdjustDynamicSectionForHole (2 ^ (8 * ws)) σ.dynamics
            (((relf.length * relocEntrySize ws rtype : Nat) : Int)
              - (sec.sh_size : Int))).filter
          (fun d => !(d.d_tag == DT_RELRSZ) && !(d.d_tag == DT_RELR) &&
            !(d.d_tag == DT_RELRENT)) ∧
      (∀ d ∈ σ.dynamics, (d.d_tag = DT_RELSZ ∨ d.d_tag = DT_RELASZ) →
        (⟨d.d_tag, addOff (2 ^ (8 * ws)) d.d_val
          (((relf.length * relocEntrySize ws rtype : Nat) : Int)
            - (sec.sh_size : Int))⟩ : Dyn) ∈ σf.dynamics)) ∧
    (∀ T : Int, (T = DT_RELRSZ ∨ T = DT_RELR ∨ T = DT_RELRENT) →
      (∀ q ∈ σ.dynamics.dropLast, q.d_tag ≠ T) →
      UnpackTypedRelocations ws σ rsec dsec rtype origRel origRela packed
        = none) := by
  constructor
  · intro σf relf hres hbd hc35 hc36 hc37 hlast
    cases rtype with
    | REL =>
      unfold UnpackTypedRelocations at hres
      dsimp only at hres
      split at hres
      · exact absurd hres (by simp)
      · split at hres
        · exact absurd hres (by simp)
        · rename_i σ1 heq1
          split at hres
          · exact absurd hres (by simp)
          · rename_i dyn2 heq2
            split at hres
            · exact absurd hres (by simp)
            · rename_i σ2 heq3
              have hpair := Option.some.inj hres
              have hσf := congrArg Prod.fst hpair
              have hrelf := congrArg Prod.snd hpair
              dsimp only at hσf hrelf
              have hcore := unpack_dyn_core ws σ σ1 rsec _ sec dyn2 hsec hbd
                heq1 heq2 hc35 hc36 hc37 hlast
              rw [← hσf, ← hrelf]
              exact hcore
    | RELA =>
      unfold UnpackTypedRelocations at hres
      dsimp only at hres
      split at hres
      · exact absurd hres (by simp)
      · split at hres
        · exact absurd hres (by simp)
        · rename_i σ1 heq1
          split at hres
          · exact absurd hres (by simp)
          · rename_i dyn2 heq2
            split at hres
            · exact absurd hres (by simp)
            · rename_i σ2 heq3
              have hpair := Option.some.inj hres
              have hσf := congrArg Prod.fst hpair
              have hrelf := congrArg Prod.snd hpair
              dsimp only at hσf hrelf
              have hcore := unpack_dyn_core ws σ σ1 rsec _ sec dyn2 hsec hbd
                heq1 heq2 hc35 hc36 hc37 hlast
              rw [← hσf, ← hrelf]
              exact hcore
  · intro T hT habs
    unfold UnpackTypedRelocations
    dsimp only
    split
    · rfl
    · split
      · rfl
      · rename_i σ1 heq1
        obtain ⟨hlen, htags⟩ := resize_dyn_tags _ σ rsec _ σ1 heq1
        rw [removePackedDynamics_none σ1.dynamics T hT
          (absent_transport σ σ1 hlen htags T habs)]

/-- A small image with a packed-relocation side table: section 0 is the
`.rela.dyn` section (24 bytes), section 1 the dynamic table; the packed
stream is the single literal word 96. -/
def exUnpackState : ElfState :=
  { e_phoff := 50, e_shoff := 500,
    sections := [⟨96, 100, 24⟩, ⟨300, 300, 40⟩],
    phdrs := [⟨PT_LOAD, 0, 0, 400, 400⟩, ⟨PT_DYNAMIC, 300, 300, 40, 40⟩],
    dynamics := [⟨DT_RELASZ, 24⟩, ⟨DT_RELRSZ, 8⟩, ⟨DT_RELR, 96⟩,
      ⟨DT_RELRENT, 4⟩, ⟨0, 0⟩] }

/-- The final state of the unpack run on `exUnpackState`. -/
def exUnpackFinal : ElfState :=
  { e_phoff := 50, e_shoff := 464,
    sections := [⟨96, 100, 12⟩, ⟨300, 288, 16⟩],
    phdrs := [⟨PT_LOAD, 0, 0, 364, 364⟩, ⟨PT_DYNAMIC, 288, 300, 40, 40⟩],
    dynamics := [⟨DT_RELASZ, 12⟩, ⟨0, 0⟩] }

theorem unpack_dynamic_rewrite_witness :
    (⟨DT_RELASZ, addOff (2 ^ (8 * 4)) 24
      (((([(⟨96, 23, 0⟩ : Rela)].length * relocEntrySize 4 RelocType.RELA : Nat) : Int)
        - ((⟨96, 100, 24⟩ : Shdr).sh_size : Int)))⟩ : Dyn) ∈
      exUnpackFinal.dynamics := by
  have h := (unpack_dynamic_rewrite 4 exUnpackState 0 1 RelocType.RELA [] [] [96]
    ⟨96, 100, 24⟩ (by decide)).1 exUnpackFinal [⟨96, 23, 0⟩] (by decide) (by decide)
    (by decide) (by decide) (by decide) (by decide)
  exact h.2 ⟨DT_RELASZ, 24⟩ (by decide) (by decide)

/-! ## The load step (C5) -/

/-- A shared object input whose encoding byte is big-endian
(`ELFDATA2MSB = 2`). -/
def exBigEndian : ElfInput :=
  { kind_is_elf := true, e_type := ET_DYN, ei_data := 2, phdrs := [],
    insections := [] }

/-- A little-endian shared object input with two `PT_DYNAMIC` program
headers. -/
def exTwoDynamic : ElfInput :=
  { kind_is_elf := true, e_type := ET_DYN, ei_data := 1,
    phdrs := [⟨PT_DYNAMIC, 0, 0, 0, 0⟩, ⟨PT_DYNAMIC, 0, 0, 0, 0⟩],
    insections := [] }

/-- C5, counterexample to the claim as stated: a shared object whose
encoding byte is big-endian makes `Load` abort the process via
`CHECK(endian == ELFDATA2LSB)` (modelled `fatal`), not return the ordinary
boolean failure the claim requires. -/
theorem load_endian_fatal_cex :
    Load exBigEndian = LoadRes.fatal ∧ Load exBigEndian ≠ LoadRes.err := by
  decide

/-- C5 (amended): on an ELF shared object, a non-little-endian encoding —
and, when the encoding is little-endian, a `PT_DYNAMIC` program-header
count different from one — terminates the process via a fatal `CHECK`
rather than returning a recoverable failure.  (The load step mutates
nothing in either case: it only classifies the input.) -/
theorem load_fatal_spec (f : ElfInput) (hk : f.kind_is_elf = true)
    (ht : f.e_type = ET_DYN) :
    (f.ei_data ≠ ELFDATA2LSB → Load f = LoadRes.fatal) ∧
    (f.ei_data = ELFDATA2LSB →
      (f.phdrs.filter fun p => p.p_type == PT_DYNAMIC).length ≠ 1 →
      Load f = LoadRes.fatal) := by
  constructor
  · intro he
    unfold Load
    rw [if_neg (by simp [hk]), if_neg (by simp [ht]), if_pos he]
  · intro he hd
    unfold Load
    rw [if_neg (by simp [hk]), if_neg (by simp [ht]), if_neg (by simp [he]),
      if_pos hd]

theorem load_fatal_spec_witness :
    Load exBigEndian = LoadRes.fatal ∧ Load exTwoDynamic = LoadRes.fatal :=
  ⟨(load_fatal_spec exBigEndian (by decide) (by decide)).1 (by decide),
   (load_fatal_spec exTwoDynamic (by decide) (by decide)).2 (by decide) (by decide)⟩

end RelrUnpack
